import Mathlib

/-!
Verification of the comment-monitoring core of the repository
(advanced_instagram_monitor.py and utils.py): the fuzzy keyword matcher,
the safety-delay manager, the DM/reply action executors, the dedup ledger
and the per-post comment-processing loop.

Strings are modelled as lists of characters (Str); the Python functions are
translated definition by definition.  Character-level operations (lower,
isalpha, whitespace) are modelled on the ASCII range, which covers every
character the source manipulates.
-/

set_option linter.unusedVariables false
set_option linter.unnecessarySeqFocus false

/-- Character strings, modelled as lists of characters. -/
abbrev Str := List Char

/-- Python str.lower on the ASCII range (Char.toLower lowercases A-Z). -/
def pyLower (s : Str) : Str := s.map Char.toLower

/-- Python whitespace characters, as recognised by str.strip and the regex
class of whitespace used in fuzzy_keyword_match. -/
def pyIsSpace (c : Char) : Bool :=
  c == ' ' || c == '\t' || c == '\n' || c == '\r' || c == '\x0b' || c == '\x0c'

/-- Python str.strip: drop leading and trailing whitespace. -/
def pyStrip (s : Str) : Str :=
  ((s.dropWhile pyIsSpace).reverse.dropWhile pyIsSpace).reverse

/-- Boolean test that the first list starts the second. -/
def prefB : Str → Str → Bool
  | [], _ => true
  | _ :: _, [] => false
  | a :: as, b :: bs => a == b && prefB as bs

/-- Python substring membership (needle in hay): the needle occurs
contiguously somewhere in the hay. -/
def isSubstr (needle : Str) : Str → Bool
  | [] => prefB needle []
  | c :: t => prefB needle (c :: t) || isSubstr needle t

/-- The whitespace-removal step of fuzzy_keyword_match (re.sub of every
whitespace run by the empty string). -/
def removeSpaces (s : Str) : Str := s.filter (fun c => !pyIsSpace c)

/-- A regex word character in the ASCII range. -/
def isWordChar (c : Char) : Bool := c.isAlphanum || c == '_'

/-- Accumulator pass behind wordsOf: collect maximal runs of word characters. -/
def wordsOfAux : Str → Str → List Str
  | acc, [] => if acc.isEmpty then [] else [acc.reverse]
  | acc, c :: t =>
    if isWordChar c then wordsOfAux (c :: acc) t
    else if acc.isEmpty then wordsOfAux [] t
    else acc.reverse :: wordsOfAux [] t

/-- The word tokens of fuzzy_keyword_match (re.findall of word runs between
word boundaries): the maximal runs of word characters, in order. -/
def wordsOf (s : Str) : List Str := wordsOfAux [] s

/-! ## A small regex engine

create_typo_pattern emits patterns built from literal characters, character
classes and optional (question-mark) quantifiers.  The engine below parses
exactly that subset of the Python regex syntax and returns none (modelling a
raised re.error, or syntax outside the supported subset) on anything else. -/

/-- One parsed regex atom: the characters it accepts (a literal is a
singleton class) and whether a trailing question mark made it optional. -/
structure RAtom where
  cls : Str
  opt : Bool
deriving DecidableEq

/-- Characters with a special meaning outside a character class in the Python
regex syntax. -/
def reMeta : Str :=
  ['.', '^', '$', '*', '+', '?', '\x7b', '\x7d', '[', ']', '(', ')', '\\', '|']

/-- Characters the parser accepts verbatim as members of a character class
(the subset of the Python class syntax that create_typo_pattern emits). -/
def classSafe (c : Char) : Bool :=
  !(c == ']' || c == '\\' || c == '^' || c == '-')

/-- The single pass behind parseMain.  The first argument is none while
scanning at the top level and some cls while inside a character class whose
members seen so far are cls (reversed); the second argument accumulates the
atoms parsed so far (reversed).  A question mark makes the atom just parsed
optional; a second quantifier in a row is outside the supported subset. -/
def parseGo : Option Str → List RAtom → Str → Option (List RAtom)
  | none, acc, [] => some acc.reverse
  | some _, _, [] => none
  | none, acc, c :: t =>
    if c == '[' then parseGo (some []) acc t
    else if c == '?' then
      match acc with
      | [] => none
      | a :: as => if a.opt then none else parseGo none (⟨a.cls, true⟩ :: as) t
    else if reMeta.contains c then none
    else parseGo none (⟨[c], false⟩ :: acc) t
  | some cls, acc, c :: t =>
    if c == ']' then
      if cls.isEmpty then none
      else parseGo none (⟨cls.reverse, false⟩ :: acc) t
    else if classSafe c then parseGo (some (c :: cls)) acc t
    else none

/-- Parse a pattern into its sequence of optionally-quantified atoms.
none models a raised re.error (or syntax outside the supported subset). -/
def parseMain (s : Str) : Option (List RAtom) := parseGo none [] s

/-- Whether the atom sequence can match some prefix of the text. -/
def matchHere : List RAtom → Str → Bool
  | [], _ => true
  | a :: rest, s =>
    (a.opt && matchHere rest s) ||
      (match s with
       | [] => false
       | c :: cs => a.cls.contains c && matchHere rest cs)

/-- re.search over the parsed atoms: they match starting at some position of
the text (including the position past its last character). -/
def reSearch (as : List RAtom) : Str → Bool
  | [] => matchHere as []
  | c :: t => matchHere as (c :: t) || reSearch as t

/-! ## create_typo_pattern -/

/-- The commonly-mistyped character substitutions of create_typo_pattern, in
the insertion order of the Python dictionary. -/
def substitutions : List (Char × Str) :=
  [ ('a', ['[', 'a', '@', ']']),
    ('e', ['[', 'e', '3', ']']),
    ('i', ['[', 'i', '1', ']']),
    ('o', ['[', 'o', '0', ']']),
    ('s', ['[', 's', '5', 'z', ']']),
    ('l', ['[', 'l', '1', ']']),
    ('t', ['[', 't', '7', ']']),
    ('g', ['[', 'g', '9', ']']),
    ('b', ['[', 'b', '6', ']']) ]

/-- Python str.replace for a single-character needle (the only form the
source uses): substitute every occurrence of the character. -/
def charReplace (needle : Char) (repl : Str) (s : Str) : Str :=
  s.flatMap (fun c => if c == needle then repl else [c])

/-- Apply a substitution table left to right (the loop over the items of the
substitutions dictionary). -/
def applyList (subs : List (Char × Str)) (s : Str) : Str :=
  subs.foldl (fun p cr => charReplace cr.1 cr.2 p) s

/-- The substitution phase of create_typo_pattern. -/
def applySubs (s : Str) : Str := applyList substitutions s

/-- The flexibility phase of create_typo_pattern: append a question mark to
every alphabetic or bracket character, making each such atom optional. -/
def flexible (s : Str) : Str :=
  s.flatMap (fun c => if c.isAlpha || c == '[' || c == ']' then [c, '?'] else [c])

/-- create_typo_pattern from advanced_instagram_monitor.py: build the
typo-tolerant pattern text for a (lowercased) keyword. -/
def create_typo_pattern (keyword : Str) : Str :=
  flexible (applySubs keyword)

/-! ## simple_typo_check and fuzzy_keyword_match -/

/-- Position-wise mismatch count over the overlapping prefix (the loop over
range of the shorter length in simple_typo_check). -/
def prefixMismatches : Str → Str → Nat
  | a :: as, b :: bs => (if a == b then 0 else 1) + prefixMismatches as bs
  | _, _ => 0

/-- Absolute difference of the lengths of two words. -/
def lenDiff (w1 w2 : Str) : Nat :=
  max w1.length w2.length - min w1.length w2.length

/-- simple_typo_check from advanced_instagram_monitor.py: a bounded,
order-sensitive typo distance over aligned prefixes. -/
def simple_typo_check (word1 word2 : Str) : Bool :=
  if lenDiff word1 word2 > 2 then false
  else
    let differences := prefixMismatches word1 word2 + lenDiff word1 word2
    let tolerance := if max word1.length word2.length > 4 then 2 else 1
    decide (differences ≤ tolerance)

/-- The body of the per-keyword loop of fuzzy_keyword_match, applied to the
lowercased comment text.  some true: the keyword fires; some false: it does
not; none: compiling or searching the typo pattern raises re.error. -/
def fuzzyMatchKeyword (commentLower : Str) (keyword : Str) : Option Bool :=
  let kl := pyStrip (pyLower keyword)
  if isSubstr kl commentLower then some true
  else if isSubstr (removeSpaces kl) (removeSpaces commentLower) then some true
  else
    match parseMain (create_typo_pattern kl) with
    | none => none
    | some atoms =>
      if reSearch atoms commentLower then some true
      else
        some ((wordsOf commentLower).any (fun w =>
          isSubstr kl w || isSubstr w kl ||
            (decide (w.length > 2) && decide (kl.length > 2) &&
              simple_typo_check w kl)))

/-- The keyword loop of fuzzy_keyword_match: first firing keyword wins. -/
def fuzzyLoop (commentLower : Str) : List Str → Option Bool
  | [] => some false
  | k :: ks =>
    match fuzzyMatchKeyword commentLower k with
    | none => none
    | some true => some true
    | some false => fuzzyLoop commentLower ks

/-- fuzzy_keyword_match from advanced_instagram_monitor.py. -/
def fuzzy_keyword_match (commentText : Str) (keywords : List Str) : Option Bool :=
  fuzzyLoop (pyLower commentText) keywords

/-! ## SafetyDelayManager

Wall-clock instants are modelled as seconds (Nat); random.randint is passed
in as a function argument so that statements can quantify over every possible
outcome of the randomness.  Timestamps recorded by the manager are assumed
not to precede the current instant by more than a day, which is where the
Python timedelta seconds field and plain subtraction agree. -/

/-- The action-category strings used by the safety manager. -/
def dmAction : Str := ['d', 'm']

/-- The reply action category. -/
def replyAction : Str := ['r', 'e', 'p', 'l', 'y']

/-- The scan action category. -/
def scanAction : Str := ['s', 'c', 'a', 'n']

/-- The between_actions action category. -/
def betweenActionsAction : Str :=
  ['b', 'e', 't', 'w', 'e', 'e', 'n', '_', 'a', 'c', 't', 'i', 'o', 'n', 's']

/-- The mutable state of SafetyDelayManager. -/
structure SafetyState where
  last_dm_time : Option Nat
  last_reply_time : Option Nat
  last_comment_scan_time : Option Nat
  action_history : List (Str × Nat)
  rate_limit_cooldown : Option Nat
deriving DecidableEq

/-- A SafetyDelayManager that has just been constructed. -/
def initialSafetyState : SafetyState :=
  ⟨none, none, none, [], none⟩

/-- get_smart_delay from SafetyDelayManager: the base range of the action
category, widened by the escalation tiers, sampled by random.randint. -/
def get_smart_delay (randint : Nat → Nat → Nat) (action_type : Str)
    (recent_actions_count : Nat) : Nat :=
  let base :=
    if action_type == dmAction then (45, 75)
    else if action_type == replyAction then (25, 40)
    else if action_type == scanAction then (8, 15)
    else if action_type == betweenActionsAction then (35, 55)
    else (30, 60)
  let adjusted :=
    if recent_actions_count > 3 then (base.1 + 15, base.2 + 25)
    else if recent_actions_count > 1 then (base.1 + 8, base.2 + 12)
    else base
  randint adjusted.1 adjusted.2

/-- should_wait_for_rate_limit: an unexpired cooldown suppresses actions. -/
def should_wait_for_rate_limit (st : SafetyState) (now : Nat) : Bool :=
  match st.rate_limit_cooldown with
  | some expiry => decide (now < expiry)
  | none => false

/-- set_rate_limit_cooldown: record the absolute expiry now plus the
duration. -/
def set_rate_limit_cooldown (st : SafetyState) (now : Nat)
    (duration_minutes : Nat) : SafetyState :=
  { st with rate_limit_cooldown := some (now + duration_minutes * 60) }

/-- The last-action timestamp lookup chain at the middle of wait_for_action
(an action category outside dm, reply and scan has no recorded timestamp). -/
def lastActionLookup (st : SafetyState) (action_type : Str) : Option Nat :=
  if action_type == dmAction then st.last_dm_time
  else if action_type == replyAction then st.last_reply_time
  else if action_type == scanAction then st.last_comment_scan_time
  else none

/-- The result of wait_for_action: the returned Boolean, the safety delay
slept (none when no sleep happened) and the updated manager state. -/
structure WaitResult where
  ok : Bool
  slept : Option Nat
  state : SafetyState
deriving DecidableEq

/-- wait_for_action from SafetyDelayManager.  now is the current wall clock
in seconds; sleeping advances the clock, and the action is recorded at the
post-sleep instant, exactly as the second datetime.now() call does. -/
def wait_for_action (randint : Nat → Nat → Nat) (st : SafetyState) (now : Nat)
    (action_type : Str) (force_wait : Bool) : WaitResult :=
  if should_wait_for_rate_limit st now then ⟨false, none, st⟩
  else
    let recent := (st.action_history.filter
      (fun a => decide ((now : Int) - (a.2 : Int) < 300))).length
    let delay := get_smart_delay randint action_type recent
    let slept :=
      match lastActionLookup st action_type with
      | some t =>
        let since := now - t
        if since < delay || force_wait then
          if delay - since > 0 then some (delay - since) else none
        else none
      | none => none
    let now2 := now + slept.getD 0
    let hist := (st.action_history ++ [(action_type, now2)]).filter
      (fun a => decide ((now : Int) - 7200 < (a.2 : Int)))
    ⟨true, slept,
      { last_dm_time :=
          if action_type == dmAction then some now2 else st.last_dm_time
        last_reply_time :=
          if action_type == replyAction then some now2 else st.last_reply_time
        last_comment_scan_time :=
          if action_type == scanAction then some now2
          else st.last_comment_scan_time
        action_history := hist
        rate_limit_cooldown := st.rate_limit_cooldown }⟩

/-! ## Action executors: send_dm and reply_to_comment

The platform client is abstracted by an outcome oracle per attempt index; the
observable behaviour of one invocation is collected in a trace of effects.
The commentId argument threaded through the monitoring model below records
which comment an invocation was made for. -/

/-- What one platform call returns inside the send_dm retry loop: a truthy
thread, a falsy result, or a raised exception carrying its message text. -/
inductive DmOutcome
  | ok
  | falsy
  | raise (msg : Str)
deriving DecidableEq

/-- What one platform call returns inside the reply_to_comment retry loop;
LoginRequired is an exception class of its own there. -/
inductive ReplyOutcome
  | ok
  | falsy
  | loginRequired
  | raise (msg : Str)
deriving DecidableEq

/-- Observable effects of one executor invocation. -/
inductive ExecEffect
  | safetySleep (seconds : Nat)
  | accountCheck
  | platformAttempt (n : Nat)
  | cooldownSet (minutes : Nat)
  | backoffSleep (seconds : Nat)
  | refreshSession
deriving DecidableEq

/-- The error-string fragment classified as a rate limit. -/
def rateLimitStr : Str := ['r', 'a', 't', 'e', ' ', 'l', 'i', 'm', 'i', 't']

/-- The second error-string fragment classified as a rate limit. -/
def tooManyStr : Str :=
  ['t', 'o', 'o', ' ', 'm', 'a', 'n', 'y', ' ',
   'r', 'e', 'q', 'u', 'e', 's', 't', 's']

/-- The error-string fragment classified as an expired session in send_dm. -/
def loginRequiredStr : Str :=
  ['l', 'o', 'g', 'i', 'n', '_', 'r', 'e', 'q', 'u', 'i', 'r', 'e', 'd']

/-- The error-string fragment classified as a spam restriction. -/
def spamStr : Str := ['s', 'p', 'a', 'm']

/-- The error-string fragment classified as a block restriction. -/
def blockedStr : Str := ['b', 'l', 'o', 'c', 'k', 'e', 'd']

/-- The error-string fragment classified as vanished content (reply only). -/
def noLongerStr : Str :=
  ['n', 'o', ' ', 'l', 'o', 'n', 'g', 'e', 'r', ' ',
   'a', 'v', 'a', 'i', 'l', 'a', 'b', 'l', 'e']

/-- The second error-string fragment classified as vanished content. -/
def notFoundStr : Str := ['n', 'o', 't', ' ', 'f', 'o', 'u', 'n', 'd']

/-- Whether a raised message is classified as a rate limit by the executors. -/
def isRateLimitMsg (msg : Str) : Bool :=
  isSubstr rateLimitStr (pyLower msg) || isSubstr tooManyStr (pyLower msg)

/-- Whether a raised message is classified as vanished content by
reply_to_comment. -/
def isNotFoundMsg (msg : Str) : Bool :=
  isSubstr noLongerStr (pyLower msg) || isSubstr notFoundStr (pyLower msg)

/-- Whether a DM attempt outcome is a raised rate-limit error. -/
def dmOutcomeRateLimit : DmOutcome → Bool
  | .raise msg => isRateLimitMsg msg
  | _ => false

/-- Whether a reply attempt outcome is a raised rate-limit error. -/
def replyOutcomeRateLimit : ReplyOutcome → Bool
  | .raise msg => isRateLimitMsg msg
  | _ => false

/-- Whether a reply attempt outcome is a raised vanished-content error. -/
def replyOutcomeNotFound : ReplyOutcome → Bool
  | .raise msg => isNotFoundMsg msg
  | _ => false

/-- The retry loop of send_dm (for attempt in range of max_retries), run over
the list of remaining attempt indices. -/
def sendDmLoop (outcome : Nat → DmOutcome) (randint : Nat → Nat → Nat)
    (now : Nat) : List Nat → SafetyState → Bool × List ExecEffect × SafetyState
  | [], st => (false, [], st)
  | attempt :: rest, st =>
    match outcome attempt with
    | .ok => (true, [.platformAttempt attempt], st)
    | .falsy =>
      let r := sendDmLoop outcome randint now rest st
      (r.1, .platformAttempt attempt :: r.2.1, r.2.2)
    | .raise msg =>
      let es := pyLower msg
      if isSubstr rateLimitStr es || isSubstr tooManyStr es then
        let st2 := set_rate_limit_cooldown st now 15
        let r := sendDmLoop outcome randint now rest st2
        (r.1,
          .platformAttempt attempt :: .cooldownSet 15 ::
            .backoffSleep (60 * (attempt + 1)) :: r.2.1,
          r.2.2)
      else if isSubstr loginRequiredStr es then
        (false, [.platformAttempt attempt, .refreshSession], st)
      else if isSubstr spamStr es || isSubstr blockedStr es then
        (false, [.platformAttempt attempt, .cooldownSet 30],
          set_rate_limit_cooldown st now 30)
      else if attempt < 3 - 1 then
        let r := sendDmLoop outcome randint now rest st
        (r.1,
          .platformAttempt attempt ::
            .backoffSleep (randint 5 15 * (attempt + 1)) :: r.2.1,
          r.2.2)
      else
        let r := sendDmLoop outcome randint now rest st
        (r.1, .platformAttempt attempt :: r.2.1, r.2.2)

/-- send_dm from AdvancedInstagramMonitor.  mainClient says whether the
action-capable session is loaded, authOk whether the account_info liveness
probe succeeds; outcome is the platform call per attempt index. -/
def send_dm (randint : Nat → Nat → Nat) (st : SafetyState) (now : Nat)
    (mainClient : Bool) (authOk : Bool) (outcome : Nat → DmOutcome) :
    Bool × List ExecEffect × SafetyState :=
  let w := wait_for_action randint st now dmAction false
  if !w.ok then (false, [], w.state)
  else
    let pre : List ExecEffect :=
      match w.slept with
      | some t => [.safetySleep t]
      | none => []
    if !mainClient then (false, pre, w.state)
    else if !authOk then
      (false, pre ++ [.accountCheck, .refreshSession], w.state)
    else
      let r := sendDmLoop outcome randint now (List.range 3) w.state
      (r.1, pre ++ .accountCheck :: r.2.1, r.2.2)

/-- The retry loop of reply_to_comment, run over the list of remaining
attempt indices. -/
def replyLoop (outcome : Nat → ReplyOutcome) (randint : Nat → Nat → Nat)
    (now : Nat) : List Nat → SafetyState → Bool × List ExecEffect × SafetyState
  | [], st => (false, [], st)
  | attempt :: rest, st =>
    match outcome attempt with
    | .ok => (true, [.platformAttempt attempt], st)
    | .falsy =>
      let pre : List ExecEffect :=
        if attempt < 3 - 1 then [.backoffSleep (randint 3 8)] else []
      let r := replyLoop outcome randint now rest st
      (r.1, .platformAttempt attempt :: pre ++ r.2.1, r.2.2)
    | .loginRequired => (false, [.platformAttempt attempt, .refreshSession], st)
    | .raise msg =>
      let es := pyLower msg
      if isSubstr rateLimitStr es || isSubstr tooManyStr es then
        let st2 := set_rate_limit_cooldown st now 10
        let r := replyLoop outcome randint now rest st2
        (r.1,
          .platformAttempt attempt :: .cooldownSet 10 ::
            .backoffSleep (30 * (attempt + 1)) :: r.2.1,
          r.2.2)
      else if isSubstr noLongerStr es || isSubstr notFoundStr es then
        (false, [.platformAttempt attempt], st)
      else if isSubstr spamStr es || isSubstr blockedStr es then
        (false, [.platformAttempt attempt, .cooldownSet 20],
          set_rate_limit_cooldown st now 20)
      else if attempt < 3 - 1 then
        let r := replyLoop outcome randint now rest st
        (r.1,
          .platformAttempt attempt ::
            .backoffSleep (randint 5 12 * (attempt + 1)) :: r.2.1,
          r.2.2)
      else
        let r := replyLoop outcome randint now rest st
        (r.1, .platformAttempt attempt :: r.2.1, r.2.2)

/-- reply_to_comment from AdvancedInstagramMonitor. -/
def reply_to_comment (randint : Nat → Nat → Nat) (st : SafetyState) (now : Nat)
    (mainClient : Bool) (outcome : Nat → ReplyOutcome) :
    Bool × List ExecEffect × SafetyState :=
  let w := wait_for_action randint st now replyAction false
  if !w.ok then (false, [], w.state)
  else
    let pre : List ExecEffect :=
      match w.slept with
      | some t => [.safetySleep t]
      | none => []
    if !mainClient then (false, pre, w.state)
    else
      let r := replyLoop outcome randint now (List.range 3) w.state
      (r.1, pre ++ r.2.1, r.2.2)

/-! ## Dedup ledger and the comment-processing loop of monitor_posts

The ledger sets are modelled as duplicate-free lists with membership-guarded
insertion; the per-post dictionary as an association list.  The executor
results inside the loop are abstracted by Boolean oracles per comment (their
internals are modelled above), and the observable behaviour of the loop is
collected in a trace of effects. -/

/-- A fetched comment as monitor_posts consumes it. -/
structure MComment where
  pk : Str
  userPk : Str
  username : Str
  text : Str
deriving DecidableEq

/-- The replied-comments tracking structure: the global set of comment ids
and the per-post sets keyed by post URL. -/
structure Ledger where
  total : List Str
  posts : List (Str × List Str)
deriving DecidableEq

/-- Python set.add on a list modelling a set. -/
def setAdd (l : List Str) (x : Str) : List Str :=
  if l.contains x then l else l ++ [x]

/-- Association-list lookup of a per-post set. -/
def lookupPosts : List (Str × List Str) → Str → Option (List Str)
  | [], _ => none
  | (u, s) :: t, url => if u == url then some s else lookupPosts t url

/-- Add a comment id to the per-post set of an existing key (the call sites
create the key first, so a missing key is left unchanged). -/
def postsAdd : List (Str × List Str) → Str → Str → List (Str × List Str)
  | [], _, _ => []
  | (u, s) :: t, url, x =>
    if u == url then (u, setAdd s x) :: t else (u, s) :: postsAdd t url x

/-- The lazy per-post initialisation at the top of the comment loop: create
an empty per-post set when the URL has none yet. -/
def ensurePost (σ : Ledger) (url : Str) : Ledger :=
  match lookupPosts σ.posts url with
  | some _ => σ
  | none => { σ with posts := σ.posts ++ [(url, [])] }

/-- The dedup gate of monitor_posts: the comment id is in the global set or
in the per-post set of the post URL. -/
def alreadyProcessed (σ : Ledger) (url : Str) (commentId : Str) : Bool :=
  σ.total.contains commentId ||
    ((lookupPosts σ.posts url).getD []).contains commentId

/-- Mark a comment processed: add its id to the global set and to the
per-post set. -/
def markProcessed (σ : Ledger) (url : Str) (commentId : Str) : Ledger :=
  { total := setAdd σ.total commentId, posts := postsAdd σ.posts url commentId }

/-- Observable side effects of one post's comment processing.  The comment
id carried by dmInvoke and replyInvoke records which comment the executor
invocation was made for. -/
inductive MEffect
  | statFound (username : Str)
  | persistLedger (σ : Ledger)
  | dmInvoke (commentId userPk message : Str)
  | statDm (username : Str)
  | betweenWait
  | replyInvoke (commentId : Str)
  | statReply
  | progressiveSleep (seconds : Nat)
deriving DecidableEq

/-- Whether an effect is an executor invocation or a ledger persist (the
side effects the dedup ledger is meant to gate). -/
def isActionEffect : MEffect → Bool
  | .dmInvoke _ _ _ => true
  | .replyInvoke _ => true
  | .persistLedger _ => true
  | _ => false

/-- Whether an effect is a DM or reply invocation for the given comment id. -/
def mentionsComment (commentId : Str) : MEffect → Bool
  | .dmInvoke k _ _ => k == commentId
  | .replyInvoke k => k == commentId
  | _ => false

/-- The effects emitted for one matching comment: comment_found statistics,
persist of the freshly marked ledger, the DM invocation (with its statistics
on success), the forced inter-action wait, the reply invocation (with its
statistics on success), and the trailing progressive-delay effects. -/
def matchBlock (c : MComment) (message : Str) (σ1 : Ledger)
    (dmS rS : Bool) (prog : List MEffect) : List MEffect :=
  .statFound c.username :: .persistLedger σ1 ::
    .dmInvoke c.pk c.userPk message ::
      ((if dmS then [.statDm c.username] else []) ++
        .betweenWait :: .replyInvoke c.pk ::
          ((if rS then [.statReply] else []) ++ prog))

/-- The per-comment loop of monitor_posts for one post: dedup gate,
comment_found statistics, fuzzy matching, immediate marking and persisting,
DM first and reply second, then the progressive delay.  dmOk and replyOk
give the Boolean results of the send_dm and reply_to_comment invocations;
delayFor gives the progressive get_smart_delay value.  An exception from
fuzzy_keyword_match (none) aborts the remaining comments of this post, as
the per-post try/except of the loop does. -/
def processComments (keywords : List Str) (message : Str) (postUrl : Str)
    (dmOk replyOk : MComment → Bool) (delayFor : Nat → Nat) :
    Ledger → Nat → List MComment → Ledger × List MEffect
  | σ, _, [] => (σ, [])
  | σ, newMatches, c :: cs =>
    if alreadyProcessed σ postUrl c.pk then
      processComments keywords message postUrl dmOk replyOk delayFor σ
        newMatches cs
    else
      match fuzzy_keyword_match c.text keywords with
      | none => (σ, [.statFound c.username])
      | some false =>
        let r := processComments keywords message postUrl dmOk replyOk delayFor
          σ newMatches cs
        (r.1, .statFound c.username :: r.2)
      | some true =>
        let σ1 := markProcessed σ postUrl c.pk
        let block : List MEffect :=
          matchBlock c message σ1 (dmOk c) (replyOk c)
            (if newMatches > 0 then
              [.progressiveSleep (delayFor newMatches)]
            else [])
        let r := processComments keywords message postUrl dmOk replyOk delayFor
          σ1 (newMatches + 1) cs
        (r.1, block ++ r.2)

/-- Processing of one active post's fetched comments inside a monitoring
cycle, starting with the lazy per-post initialisation. -/
def processPost (keywords : List Str) (message : Str) (postUrl : Str)
    (dmOk replyOk : MComment → Bool) (delayFor : Nat → Nat)
    (σ : Ledger) (comments : List MComment) : Ledger × List MEffect :=
  processComments keywords message postUrl dmOk replyOk delayFor
    (ensurePost σ postUrl) 0 comments

/-! ## load_replied_comments from utils.py -/

/-- What reading replied.json can find: no file, a file that is not valid
JSON, or a JSON object whose total and posts keys may each be absent. -/
inductive RepliedFile
  | missing
  | corrupt
  | valid (total : Option (List Str)) (posts : Option (List (Str × List Str)))

/-- Python set conversion of a list: keep the distinct elements. -/
def setOfList (l : List Str) : List Str :=
  l.foldl (fun acc x => setAdd acc x) []

/-- load_replied_comments from utils.py: a missing file or invalid JSON
yields the empty tracking structure; otherwise absent keys are defaulted and
the stored lists become sets. -/
def load_replied_comments : RepliedFile → Ledger
  | .missing => ⟨[], []⟩
  | .corrupt => ⟨[], []⟩
  | .valid t p =>
    ⟨setOfList (t.getD []),
      (p.getD []).map (fun up => (up.1, setOfList up.2))⟩

/-! ## Claim C1 -/

/-- C1: contrary to the specified property, fuzzy_keyword_match accepts the
non-matching text xyz against the keyword link.  The typo pattern built for
link consists solely of optional atoms, so the regex search succeeds on every
text and the function returns true instead of the specified false. -/
theorem c1_fuzzy_match_xyz_link_evaluates_true :
    fuzzy_keyword_match ['x', 'y', 'z'] [['l', 'i', 'n', 'k']] = some true := by
  decide

/-! ## Claim C10 -/

/-- C10: loading the dedup ledger from a missing replied.json file or from
one holding invalid JSON returns the empty ledger (empty global set, empty
per-post map) rather than failing. -/
theorem c10_load_replied_missing_or_corrupt_is_empty :
    load_replied_comments .missing = ⟨[], []⟩ ∧
    load_replied_comments .corrupt = ⟨[], []⟩ :=
  ⟨rfl, rfl⟩

/-! ## Claim C7 -/

/-- C7: for every possible outcome of the internal randomness, the dm delay
lies in the base range for a recent-action count of at most 1, in the middle
tier for a count of 2 or 3, and in the escalated tier for a count above 3. -/
theorem c7_dm_delay_tiers (randint : Nat → Nat → Nat)
    (hr : ∀ a b, a ≤ b → a ≤ randint a b ∧ randint a b ≤ b) (c : Nat) :
    (c ≤ 1 → 45 ≤ get_smart_delay randint dmAction c ∧
      get_smart_delay randint dmAction c ≤ 75) ∧
    ((c = 2 ∨ c = 3) → 53 ≤ get_smart_delay randint dmAction c ∧
      get_smart_delay randint dmAction c ≤ 87) ∧
    (c > 3 → 60 ≤ get_smart_delay randint dmAction c ∧
      get_smart_delay randint dmAction c ≤ 100) := by
  have key : get_smart_delay randint dmAction c =
      if c > 3 then randint 60 100
      else if c > 1 then randint 53 87
      else randint 45 75 := by
    by_cases h3 : c > 3
    · simp [get_smart_delay, h3]
    · by_cases h1 : c > 1
      · simp [get_smart_delay, h3, h1]
      · simp [get_smart_delay, h3, h1]
  refine ⟨fun h => ?_, fun h => ?_, fun h => ?_⟩
  · rw [key, if_neg (by omega), if_neg (by omega)]
    exact hr 45 75 (by norm_num)
  · rw [key, if_neg (by omega), if_pos (by omega)]
    exact hr 53 87 (by norm_num)
  · rw [key, if_pos h]
    exact hr 60 100 (by norm_num)

/-- Witness for C7 at the constant-low randomness, recent counts 0 and 4. -/
theorem c7_dm_delay_tiers_witness :
    (45 ≤ get_smart_delay (fun a _ => a) dmAction 0 ∧
      get_smart_delay (fun a _ => a) dmAction 0 ≤ 75) ∧
    (60 ≤ get_smart_delay (fun a _ => a) dmAction 4 ∧
      get_smart_delay (fun a _ => a) dmAction 4 ≤ 100) :=
  ⟨(c7_dm_delay_tiers (fun a _ => a)
      (fun a b h => ⟨Nat.le_refl a, h⟩) 0).1 (by norm_num),
    (c7_dm_delay_tiers (fun a _ => a)
      (fun a b h => ⟨Nat.le_refl a, h⟩) 4).2.2 (by norm_num)⟩

/-! ## Claim C8 -/

/-- C8: for a word and a keyword each longer than 2 characters, the word
level typo check accepts exactly when the position-wise mismatch count over
the overlapping prefix plus the absolute length difference is at most 2 when
the longer word exceeds length 4, and at most 1 otherwise. -/
theorem c8_simple_typo_check_characterisation (w k : Str)
    (hw : w.length > 2) (hk : k.length > 2) :
    simple_typo_check w k = true ↔
      prefixMismatches w k + lenDiff w k ≤
        (if max w.length k.length > 4 then 2 else 1) := by
  unfold simple_typo_check
  by_cases hd : lenDiff w k > 2
  · rw [if_pos hd]
    constructor
    · intro h; exact absurd h (by simp)
    · intro h; exfalso
      rcases le_or_lt (max w.length k.length) 4 with h4 | h4
      · rw [if_neg (by omega)] at h; omega
      · rw [if_pos (by omega)] at h; omega
  · rw [if_neg hd]
    simp only [decide_eq_true_eq]

/-- Witness for C8 on the concrete pair abc and abd. -/
theorem c8_simple_typo_check_witness :
    simple_typo_check ['a', 'b', 'c'] ['a', 'b', 'd'] = true ↔
      prefixMismatches ['a', 'b', 'c'] ['a', 'b', 'd'] +
          lenDiff ['a', 'b', 'c'] ['a', 'b', 'd'] ≤
        (if max (['a', 'b', 'c'] : Str).length (['a', 'b', 'd'] : Str).length > 4
          then 2 else 1) :=
  c8_simple_typo_check_characterisation ['a', 'b', 'c'] ['a', 'b', 'd']
    (by norm_num) (by norm_num)

/-! ## Claim C9 -/

/-- C9: wait_for_action sleeps only when a last-action timestamp is recorded
for the requested category; the between_actions category never has a
last-action timestamp, so the forced inter-action wait between the DM and the
reply returns true without sleeping whenever no cooldown is active. -/
theorem c9_between_actions_wait_is_noop :
    (∀ (randint : Nat → Nat → Nat) (st : SafetyState) (now : Nat)
        (a : Str) (f : Bool),
      (wait_for_action randint st now a f).slept ≠ none →
        lastActionLookup st a ≠ none) ∧
    (∀ st : SafetyState, lastActionLookup st betweenActionsAction = none) ∧
    (∀ (randint : Nat → Nat → Nat) (st : SafetyState) (now : Nat),
      should_wait_for_rate_limit st now = false →
        (wait_for_action randint st now betweenActionsAction true).ok = true ∧
        (wait_for_action randint st now betweenActionsAction true).slept = none) := by
  have hlook : ∀ st : SafetyState, lastActionLookup st betweenActionsAction = none := by
    intro st; rfl
  refine ⟨?_, hlook, ?_⟩
  · intro randint st now a f h
    by_cases hc : should_wait_for_rate_limit st now
    · exact absurd (by simp [wait_for_action, hc]) h
    · intro hnone
      exact h (by simp [wait_for_action, hc, hnone])
  · intro randint st now hc
    constructor
    · simp [wait_for_action, hc]
    · simp [wait_for_action, hc, hlook]

/-- Witness for C9: a fresh manager with no cooldown, forced wait. -/
theorem c9_between_actions_wait_is_noop_witness :
    (wait_for_action (fun a _ => a) initialSafetyState 50
        betweenActionsAction true).ok = true ∧
    (wait_for_action (fun a _ => a) initialSafetyState 50
        betweenActionsAction true).slept = none :=
  c9_between_actions_wait_is_noop.2.2 (fun a _ => a) initialSafetyState 50
    (by decide)

/-! ## Claim C6 -/

/-- C6: when no action-capable (main) session is loaded, send_dm and
reply_to_comment both return failure without making any platform-call
attempt: the retry loop is never entered. -/
theorem c6_no_main_session_fails_without_attempt
    (randint : Nat → Nat → Nat) (st st2 : SafetyState) (now now2 : Nat)
    (authOk : Bool) (o : Nat → DmOutcome) (o2 : Nat → ReplyOutcome) :
    ((send_dm randint st now false authOk o).1 = false ∧
      ∀ j, ExecEffect.platformAttempt j ∉
        (send_dm randint st now false authOk o).2.1) ∧
    ((reply_to_comment randint st2 now2 false o2).1 = false ∧
      ∀ j, ExecEffect.platformAttempt j ∉
        (reply_to_comment randint st2 now2 false o2).2.1) := by
  constructor
  · unfold send_dm
    obtain ⟨ok, slept, st'⟩ := wait_for_action randint st now dmAction false
    cases ok <;> cases slept <;> simp
  · unfold reply_to_comment
    obtain ⟨ok, slept, st'⟩ := wait_for_action randint st2 now2 replyAction false
    cases ok <;> cases slept <;> simp

/-! ## Claim C5: lemmas about the retry loops -/

/-- Number of platform-call attempts recorded in an executor trace. -/
def countAttempts : List ExecEffect → Nat
  | [] => 0
  | .platformAttempt _ :: t => countAttempts t + 1
  | _ :: t => countAttempts t

/-- Attempt indices in a dm retry-loop trace come from the index list. -/
theorem sendDmLoop_mem_range (o : Nat → DmOutcome) (rnd : Nat → Nat → Nat)
    (now : Nat) :
    ∀ k a st j, ExecEffect.platformAttempt j ∈
        (sendDmLoop o rnd now (List.range' a k) st).2.1 →
      a ≤ j ∧ j < a + k := by
  intro k
  induction k with
  | zero => intro a st j h; simp [List.range', sendDmLoop] at h
  | succ k ih =>
    intro a st j h
    rw [List.range'_succ] at h
    cases ho : o a with
    | ok =>
      simp [sendDmLoop, ho] at h
      omega
    | falsy =>
      simp [sendDmLoop, ho] at h
      rcases h with rfl | ht
      · omega
      · have := ih (a + 1) st j ht; omega
    | raise msg =>
      by_cases hrl : (isSubstr rateLimitStr (pyLower msg) ||
          isSubstr tooManyStr (pyLower msg)) = true
      · simp [sendDmLoop, ho, hrl] at h
        rcases h with rfl | ht
        · omega
        · have := ih (a + 1) (set_rate_limit_cooldown st now 15) j ht; omega
      · by_cases hlg : isSubstr loginRequiredStr (pyLower msg) = true
        · simp [sendDmLoop, ho, hrl, hlg] at h
          omega
        · by_cases hsp : (isSubstr spamStr (pyLower msg) ||
              isSubstr blockedStr (pyLower msg)) = true
          · simp [sendDmLoop, ho, hrl, hlg, hsp] at h
            omega
          · by_cases hlt : a < 3 - 1
            · simp [sendDmLoop, ho, hrl, hlg, hsp, hlt] at h
              rcases h with rfl | ht
              · omega
              · have := ih (a + 1) st j ht; omega
            · simp [sendDmLoop, ho, hrl, hlg, hsp, hlt] at h
              rcases h with rfl | ht
              · omega
              · have := ih (a + 1) st j ht; omega

/-- A dm retry-loop run makes at most one attempt per remaining index. -/
theorem sendDmLoop_count (o : Nat → DmOutcome) (rnd : Nat → Nat → Nat)
    (now : Nat) :
    ∀ k a st,
      countAttempts (sendDmLoop o rnd now (List.range' a k) st).2.1 ≤ k := by
  intro k
  induction k with
  | zero => intro a st; simp [List.range', sendDmLoop, countAttempts]
  | succ k ih =>
    intro a st
    rw [List.range'_succ]
    cases ho : o a with
    | ok => simp [sendDmLoop, ho, countAttempts]
    | falsy =>
      simp only [sendDmLoop, ho, countAttempts]
      have := ih (a + 1) st; omega
    | raise msg =>
      by_cases hrl : (isSubstr rateLimitStr (pyLower msg) ||
          isSubstr tooManyStr (pyLower msg)) = true
      · simp only [sendDmLoop, ho, hrl, if_true, countAttempts]
        have := ih (a + 1) (set_rate_limit_cooldown st now 15); omega
      · by_cases hlg : isSubstr loginRequiredStr (pyLower msg) = true
        · simp [sendDmLoop, ho, hrl, hlg, countAttempts]
        · by_cases hsp : (isSubstr spamStr (pyLower msg) ||
              isSubstr blockedStr (pyLower msg)) = true
          · simp [sendDmLoop, ho, hrl, hlg, hsp, countAttempts]
          · by_cases hlt : a < 3 - 1
            · simp only [sendDmLoop, ho, hrl, hlg, hsp, hlt,
                Bool.false_eq_true, if_false, if_true, countAttempts]
              have := ih (a + 1) st; omega
            · simp only [sendDmLoop, ho, hrl, hlg, hsp, hlt,
                Bool.false_eq_true, if_false, countAttempts]
              have := ih (a + 1) st; omega

/-- A dm retry-loop run over a nonempty index list attempts its head index. -/
theorem sendDmLoop_head_mem (o : Nat → DmOutcome) (rnd : Nat → Nat → Nat)
    (now : Nat) (k a : Nat) (st : SafetyState) (hk : 0 < k) :
    ExecEffect.platformAttempt a ∈
      (sendDmLoop o rnd now (List.range' a k) st).2.1 := by
  obtain ⟨k, rfl⟩ : ∃ m, k = m + 1 := ⟨k - 1, by omega⟩
  rw [List.range'_succ]
  cases ho : o a with
  | ok => simp [sendDmLoop, ho]
  | falsy => simp [sendDmLoop, ho]
  | raise msg =>
    by_cases hrl : (isSubstr rateLimitStr (pyLower msg) ||
        isSubstr tooManyStr (pyLower msg)) = true
    · simp [sendDmLoop, ho, hrl]
    · by_cases hlg : isSubstr loginRequiredStr (pyLower msg) = true
      · simp [sendDmLoop, ho, hrl, hlg]
      · by_cases hsp : (isSubstr spamStr (pyLower msg) ||
            isSubstr blockedStr (pyLower msg)) = true
        · simp [sendDmLoop, ho, hrl, hlg, hsp]
        · by_cases hlt : a < 3 - 1
          · simp [sendDmLoop, ho, hrl, hlg, hsp, hlt]
          · simp [sendDmLoop, ho, hrl, hlg, hsp, hlt]

/-- Rate-limit classification in the dm retry loop: the 15 minute cooldown is
set and, when indices remain, the next attempt is made. -/
theorem sendDmLoop_rate_limit (o : Nat → DmOutcome) (rnd : Nat → Nat → Nat)
    (now : Nat) :
    ∀ k a st j, ExecEffect.platformAttempt j ∈
        (sendDmLoop o rnd now (List.range' a k) st).2.1 →
      dmOutcomeRateLimit (o j) = true →
      ExecEffect.cooldownSet 15 ∈
          (sendDmLoop o rnd now (List.range' a k) st).2.1 ∧
        (j + 1 < a + k → ExecEffect.platformAttempt (j + 1) ∈
          (sendDmLoop o rnd now (List.range' a k) st).2.1) := by
  intro k
  induction k with
  | zero => intro a st j h; simp [List.range', sendDmLoop] at h
  | succ k ih =>
    intro a st j h hj
    rw [List.range'_succ] at h ⊢
    cases ho : o a with
    | ok =>
      simp [sendDmLoop, ho] at h
      subst h
      rw [ho] at hj
      simp [dmOutcomeRateLimit] at hj
    | falsy =>
      simp only [sendDmLoop, ho] at h ⊢
      simp only [List.mem_cons] at h
      rcases h with h | ht
      · obtain rfl : j = a := by simpa using h
        rw [ho] at hj; simp [dmOutcomeRateLimit] at hj
      · have hih := ih (a + 1) st j ht hj
        refine ⟨?_, fun hlt => ?_⟩
        · have := hih.1; simp [this]
        · have := hih.2 (by omega); simp [this]
    | raise msg =>
      by_cases hrl : (isSubstr rateLimitStr (pyLower msg) ||
          isSubstr tooManyStr (pyLower msg)) = true
      · simp only [sendDmLoop, ho, hrl, if_true] at h ⊢
        simp only [List.mem_cons] at h
        rcases h with h | h | h | ht
        · obtain rfl : j = a := by simpa using h
          refine ⟨?_, fun hlt => ?_⟩
          · simp
          · have hnext := sendDmLoop_head_mem o rnd now k (j + 1)
              (set_rate_limit_cooldown st now 15) (by omega)
            simp [hnext]
        · exact absurd h (by simp)
        · exact absurd h (by simp)
        · have hih := ih (a + 1) (set_rate_limit_cooldown st now 15) j ht hj
          refine ⟨?_, fun hlt => ?_⟩
          · have := hih.1; simp [this]
          · have := hih.2 (by omega); simp [this]
      · have hjne : j ≠ a := by
          intro hja
          subst hja
          rw [ho] at hj
          simp only [dmOutcomeRateLimit, isRateLimitMsg] at hj
          exact absurd hj (by simpa using hrl)
        by_cases hlg : isSubstr loginRequiredStr (pyLower msg) = true
        · simp [sendDmLoop, ho, hrl, hlg] at h
          exact absurd h hjne
        · by_cases hsp : (isSubstr spamStr (pyLower msg) ||
              isSubstr blockedStr (pyLower msg)) = true
          · simp [sendDmLoop, ho, hrl, hlg, hsp] at h
            exact absurd h hjne
          · by_cases hlt : a < 3 - 1
            · simp only [sendDmLoop, ho, hrl, hlg, hsp, hlt,
                Bool.false_eq_true, if_false, if_true] at h ⊢
              simp only [List.mem_cons] at h
              rcases h with h | h | ht
              · exact absurd (by simpa using h) hjne
              · exact absurd h (by simp)
              · have hih := ih (a + 1) st j ht hj
                refine ⟨?_, fun hl => ?_⟩
                · have := hih.1; simp [this]
                · have := hih.2 (by omega); simp [this]
            · simp only [sendDmLoop, ho, hrl, hlg, hsp, hlt,
                Bool.false_eq_true, if_false] at h ⊢
              simp only [List.mem_cons] at h
              rcases h with h | ht
              · exact absurd (by simpa using h) hjne
              · have hih := ih (a + 1) st j ht hj
                refine ⟨?_, fun hl => ?_⟩
                · have := hih.1; simp [this]
                · have := hih.2 (by omega); simp [this]

/-- countAttempts distributes over trace concatenation. -/
theorem countAttempts_append (l1 l2 : List ExecEffect) :
    countAttempts (l1 ++ l2) = countAttempts l1 + countAttempts l2 := by
  induction l1 with
  | nil => simp [countAttempts]
  | cons e t ih =>
    cases e <;> simp [countAttempts, ih] <;> omega

/-- Attempt indices in a reply retry-loop trace come from the index list. -/
theorem replyLoop_mem_range (o : Nat → ReplyOutcome) (rnd : Nat → Nat → Nat)
    (now : Nat) :
    ∀ k a st j, ExecEffect.platformAttempt j ∈
        (replyLoop o rnd now (List.range' a k) st).2.1 →
      a ≤ j ∧ j < a + k := by
  intro k
  induction k with
  | zero => intro a st j h; simp [List.range', replyLoop] at h
  | succ k ih =>
    intro a st j h
    rw [List.range'_succ] at h
    cases ho : o a with
    | ok =>
      simp [replyLoop, ho] at h
      omega
    | falsy =>
      by_cases hlt : a < 3 - 1
      · simp [replyLoop, ho, hlt] at h
        rcases h with rfl | ht
        · omega
        · have := ih (a + 1) st j ht; omega
      · simp [replyLoop, ho, hlt] at h
        rcases h with rfl | ht
        · omega
        · have := ih (a + 1) st j ht; omega
    | loginRequired =>
      simp [replyLoop, ho] at h
      omega
    | raise msg =>
      by_cases hrl : (isSubstr rateLimitStr (pyLower msg) ||
          isSubstr tooManyStr (pyLower msg)) = true
      · simp [replyLoop, ho, hrl] at h
        rcases h with rfl | ht
        · omega
        · have := ih (a + 1) (set_rate_limit_cooldown st now 10) j ht; omega
      · by_cases hnf : (isSubstr noLongerStr (pyLower msg) ||
            isSubstr notFoundStr (pyLower msg)) = true
        · simp [replyLoop, ho, hrl, hnf] at h
          omega
        · by_cases hsp : (isSubstr spamStr (pyLower msg) ||
              isSubstr blockedStr (pyLower msg)) = true
          · simp [replyLoop, ho, hrl, hnf, hsp] at h
            omega
          · by_cases hlt : a < 3 - 1
            · simp [replyLoop, ho, hrl, hnf, hsp, hlt] at h
              rcases h with rfl | ht
              · omega
              · have := ih (a + 1) st j ht; omega
            · simp [replyLoop, ho, hrl, hnf, hsp, hlt] at h
              rcases h with rfl | ht
              · omega
              · have := ih (a + 1) st j ht; omega

/-- A reply retry-loop run makes at most one attempt per remaining index. -/
theorem replyLoop_count (o : Nat → ReplyOutcome) (rnd : Nat → Nat → Nat)
    (now : Nat) :
    ∀ k a st,
      countAttempts (replyLoop o rnd now (List.range' a k) st).2.1 ≤ k := by
  intro k
  induction k with
  | zero => intro a st; simp [List.range', replyLoop, countAttempts]
  | succ k ih =>
    intro a st
    rw [List.range'_succ]
    cases ho : o a with
    | ok => simp [replyLoop, ho, countAttempts]
    | falsy =>
      by_cases hlt : a < 3 - 1
      · simp only [replyLoop, ho, hlt, if_true, List.cons_append,
          List.nil_append, countAttempts]
        have := ih (a + 1) st; omega
      · simp only [replyLoop, ho, hlt, if_false, List.cons_append,
          List.nil_append, countAttempts]
        have := ih (a + 1) st; omega
    | loginRequired => simp [replyLoop, ho, countAttempts]
    | raise msg =>
      by_cases hrl : (isSubstr rateLimitStr (pyLower msg) ||
          isSubstr tooManyStr (pyLower msg)) = true
      · simp only [replyLoop, ho, hrl, if_true, countAttempts]
        have := ih (a + 1) (set_rate_limit_cooldown st now 10); omega
      · by_cases hnf : (isSubstr noLongerStr (pyLower msg) ||
            isSubstr notFoundStr (pyLower msg)) = true
        · simp [replyLoop, ho, hrl, hnf, countAttempts]
        · by_cases hsp : (isSubstr spamStr (pyLower msg) ||
              isSubstr blockedStr (pyLower msg)) = true
          · simp [replyLoop, ho, hrl, hnf, hsp, countAttempts]
          · by_cases hlt : a < 3 - 1
            · simp only [replyLoop, ho, hrl, hnf, hsp, hlt,
                Bool.false_eq_true, if_false, if_true, countAttempts]
              have := ih (a + 1) st; omega
            · simp only [replyLoop, ho, hrl, hnf, hsp, hlt,
                Bool.false_eq_true, if_false, countAttempts]
              have := ih (a + 1) st; omega

/-- A reply retry-loop run over a nonempty index list attempts its head. -/
theorem replyLoop_head_mem (o : Nat → ReplyOutcome) (rnd : Nat → Nat → Nat)
    (now : Nat) (k a : Nat) (st : SafetyState) (hk : 0 < k) :
    ExecEffect.platformAttempt a ∈
      (replyLoop o rnd now (List.range' a k) st).2.1 := by
  obtain ⟨k, rfl⟩ : ∃ m, k = m + 1 := ⟨k - 1, by omega⟩
  rw [List.range'_succ]
  cases ho : o a with
  | ok => simp [replyLoop, ho]
  | falsy =>
    by_cases hlt : a < 3 - 1
    · simp [replyLoop, ho, hlt]
    · simp [replyLoop, ho, hlt]
  | loginRequired => simp [replyLoop, ho]
  | raise msg =>
    by_cases hrl : (isSubstr rateLimitStr (pyLower msg) ||
        isSubstr tooManyStr (pyLower msg)) = true
    · simp [replyLoop, ho, hrl]
    · by_cases hnf : (isSubstr noLongerStr (pyLower msg) ||
          isSubstr notFoundStr (pyLower msg)) = true
      · simp [replyLoop, ho, hrl, hnf]
      · by_cases hsp : (isSubstr spamStr (pyLower msg) ||
            isSubstr blockedStr (pyLower msg)) = true
        · simp [replyLoop, ho, hrl, hnf, hsp]
        · by_cases hlt : a < 3 - 1
          · simp [replyLoop, ho, hrl, hnf, hsp, hlt]
          · simp [replyLoop, ho, hrl, hnf, hsp, hlt]

/-- Rate-limit classification in the reply retry loop: the 10 minute
cooldown is set and, when indices remain, the next attempt is made. -/
theorem replyLoop_rate_limit (o : Nat → ReplyOutcome) (rnd : Nat → Nat → Nat)
    (now : Nat) :
    ∀ k a st j, ExecEffect.platformAttempt j ∈
        (replyLoop o rnd now (List.range' a k) st).2.1 →
      replyOutcomeRateLimit (o j) = true →
      ExecEffect.cooldownSet 10 ∈
          (replyLoop o rnd now (List.range' a k) st).2.1 ∧
        (j + 1 < a + k → ExecEffect.platformAttempt (j + 1) ∈
          (replyLoop o rnd now (List.range' a k) st).2.1) := by
  intro k
  induction k with
  | zero => intro a st j h; simp [List.range', replyLoop] at h
  | succ k ih =>
    intro a st j h hj
    rw [List.range'_succ] at h ⊢
    cases ho : o a with
    | ok =>
      simp [replyLoop, ho] at h
      subst h
      rw [ho] at hj
      simp [replyOutcomeRateLimit] at hj
    | falsy =>
      by_cases hlt : a < 3 - 1 <;>
      · simp only [replyLoop, ho, hlt, if_true, Bool.false_eq_true, if_false,
          List.cons_append, List.nil_append] at h ⊢
        simp only [List.mem_cons] at h
        first
        | (rcases h with h | h | ht
           · obtain rfl : j = a := by simpa using h
             rw [ho] at hj; simp [replyOutcomeRateLimit] at hj
           · exact absurd h (by simp)
           · have hih := ih (a + 1) st j ht hj
             refine ⟨?_, fun hl => ?_⟩
             · have := hih.1; simp [this]
             · have := hih.2 (by omega); simp [this])
        | (rcases h with h | ht
           · obtain rfl : j = a := by simpa using h
             rw [ho] at hj; simp [replyOutcomeRateLimit] at hj
           · have hih := ih (a + 1) st j ht hj
             refine ⟨?_, fun hl => ?_⟩
             · have := hih.1; simp [this]
             · have := hih.2 (by omega); simp [this])
    | loginRequired =>
      simp [replyLoop, ho] at h
      subst h
      rw [ho] at hj
      simp [replyOutcomeRateLimit] at hj
    | raise msg =>
      by_cases hrl : (isSubstr rateLimitStr (pyLower msg) ||
          isSubstr tooManyStr (pyLower msg)) = true
      · simp only [replyLoop, ho, hrl, if_true] at h ⊢
        simp only [List.mem_cons] at h
        rcases h with h | h | h | ht
        · obtain rfl : j = a := by simpa using h
          refine ⟨?_, fun hl => ?_⟩
          · simp
          · have hnext := replyLoop_head_mem o rnd now k (j + 1)
              (set_rate_limit_cooldown st now 10) (by omega)
            simp [hnext]
        · exact absurd h (by simp)
        · exact absurd h (by simp)
        · have hih := ih (a + 1) (set_rate_limit_cooldown st now 10) j ht hj
          refine ⟨?_, fun hl => ?_⟩
          · have := hih.1; simp [this]
          · have := hih.2 (by omega); simp [this]
      · have hjne : j ≠ a := by
          intro hja
          subst hja
          rw [ho] at hj
          simp only [replyOutcomeRateLimit, isRateLimitMsg] at hj
          exact absurd hj (by simpa using hrl)
        by_cases hnf : (isSubstr noLongerStr (pyLower msg) ||
            isSubstr notFoundStr (pyLower msg)) = true
        · simp [replyLoop, ho, hrl, hnf] at h
          exact absurd h hjne
        · by_cases hsp : (isSubstr spamStr (pyLower msg) ||
              isSubstr blockedStr (pyLower msg)) = true
          · simp [replyLoop, ho, hrl, hnf, hsp] at h
            exact absurd h hjne
          · by_cases hlt : a < 3 - 1
            · simp only [replyLoop, ho, hrl, hnf, hsp, hlt,
                Bool.false_eq_true, if_false, if_true] at h ⊢
              simp only [List.mem_cons] at h
              rcases h with h | h | ht
              · exact absurd (by simpa using h) hjne
              · exact absurd h (by simp)
              · have hih := ih (a + 1) st j ht hj
                refine ⟨?_, fun hl => ?_⟩
                · have := hih.1; simp [this]
                · have := hih.2 (by omega); simp [this]
            · simp only [replyLoop, ho, hrl, hnf, hsp, hlt,
                Bool.false_eq_true, if_false] at h ⊢
              simp only [List.mem_cons] at h
              rcases h with h | ht
              · exact absurd (by simpa using h) hjne
              · have hih := ih (a + 1) st j ht hj
                refine ⟨?_, fun hl => ?_⟩
                · have := hih.1; simp [this]
                · have := hih.2 (by omega); simp [this]


/-- Vanished-content classification in the reply retry loop: the whole
operation fails and no attempt after the failing one is made. -/
theorem replyLoop_not_found (o : Nat → ReplyOutcome) (rnd : Nat → Nat → Nat)
    (now : Nat) :
    ∀ k a st j, ExecEffect.platformAttempt j ∈
        (replyLoop o rnd now (List.range' a k) st).2.1 →
      replyOutcomeNotFound (o j) = true →
      replyOutcomeRateLimit (o j) = false →
      (replyLoop o rnd now (List.range' a k) st).1 = false ∧
        ∀ i, ExecEffect.platformAttempt i ∈
          (replyLoop o rnd now (List.range' a k) st).2.1 → i ≤ j := by
  intro k
  induction k with
  | zero => intro a st j h; simp [List.range', replyLoop] at h
  | succ k ih =>
    intro a st j h hnf hnrl
    rw [List.range'_succ] at h ⊢
    cases ho : o a with
    | ok =>
      simp [replyLoop, ho] at h
      rw [h, ho] at hnf
      simp [replyOutcomeNotFound] at hnf
    | falsy =>
      by_cases hlt : a < 3 - 1
      · simp only [replyLoop, ho, hlt, if_true, List.cons_append,
          List.nil_append] at h ⊢
        simp only [List.mem_cons] at h
        rcases h with h | h | ht
        · have hja : j = a := by simpa using h
          rw [hja, ho] at hnf
          simp [replyOutcomeNotFound] at hnf
        · exact absurd h (by simp)
        · have hih := ih (a + 1) st j ht hnf hnrl
          refine ⟨hih.1, fun i hi => ?_⟩
          simp only [List.mem_cons] at hi
          rcases hi with hi | hi | hi
          · have hia : i = a := by simpa using hi
            have hb := (replyLoop_mem_range o rnd now k (a + 1) st j ht).1
            omega
          · exact absurd hi (by simp)
          · exact hih.2 i hi
      · simp only [replyLoop, ho] at h ⊢
        rw [if_neg hlt] at h ⊢
        simp only [List.singleton_append] at h ⊢
        simp only [List.mem_cons] at h
        rcases h with h | ht
        · have hja : j = a := by simpa using h
          rw [hja, ho] at hnf
          simp [replyOutcomeNotFound] at hnf
        · have hih := ih (a + 1) st j ht hnf hnrl
          refine ⟨hih.1, fun i hi => ?_⟩
          simp only [List.mem_cons] at hi
          rcases hi with hi | hi
          · have hia : i = a := by simpa using hi
            have hb := (replyLoop_mem_range o rnd now k (a + 1) st j ht).1
            omega
          · exact hih.2 i hi
    | loginRequired =>
      simp [replyLoop, ho] at h
      rw [h, ho] at hnf
      simp [replyOutcomeNotFound] at hnf
    | raise msg =>
      by_cases hrl : (isSubstr rateLimitStr (pyLower msg) ||
          isSubstr tooManyStr (pyLower msg)) = true
      · simp only [replyLoop, ho, hrl, if_true] at h ⊢
        simp only [List.mem_cons] at h
        rcases h with h | h | h | ht
        · have hja : j = a := by simpa using h
          rw [hja, ho] at hnrl
          simp only [replyOutcomeRateLimit, isRateLimitMsg] at hnrl
          rw [hnrl] at hrl
          cases hrl
        · exact absurd h (by simp)
        · exact absurd h (by simp)
        · have hih := ih (a + 1) (set_rate_limit_cooldown st now 10) j ht
            hnf hnrl
          refine ⟨hih.1, fun i hi => ?_⟩
          simp only [List.mem_cons] at hi
          rcases hi with hi | hi | hi | hi
          · have hia : i = a := by simpa using hi
            have hb := (replyLoop_mem_range o rnd now k (a + 1)
              (set_rate_limit_cooldown st now 10) j ht).1
            omega
          · exact absurd hi (by simp)
          · exact absurd hi (by simp)
          · exact hih.2 i hi
      · by_cases hnf2 : (isSubstr noLongerStr (pyLower msg) ||
            isSubstr notFoundStr (pyLower msg)) = true
        · simp only [replyLoop, ho, hrl, hnf2, Bool.false_eq_true, if_false,
            if_true] at h ⊢
          simp only [List.mem_singleton] at h
          have hja : j = a := by simpa using h
          refine ⟨by trivial, fun i hi => ?_⟩
          simp only [List.mem_singleton] at hi
          have hia : i = a := by simpa using hi
          omega
        · have hjne : j ≠ a := by
            intro hja
            rw [hja, ho] at hnf
            simp only [replyOutcomeNotFound, isNotFoundMsg] at hnf
            exact absurd hnf (by simpa using hnf2)
          by_cases hsp : (isSubstr spamStr (pyLower msg) ||
              isSubstr blockedStr (pyLower msg)) = true
          · simp [replyLoop, ho, hrl, hnf2, hsp] at h
            exact absurd h hjne
          · by_cases hlt : a < 3 - 1
            · simp only [replyLoop, ho, hrl, hnf2, hsp, hlt,
                Bool.false_eq_true, if_false, if_true] at h ⊢
              simp only [List.mem_cons] at h
              rcases h with h | h | ht
              · exact absurd (by simpa using h) hjne
              · exact absurd h (by simp)
              · have hih := ih (a + 1) st j ht hnf hnrl
                refine ⟨hih.1, fun i hi => ?_⟩
                simp only [List.mem_cons] at hi
                rcases hi with hi | hi | hi
                · have hia : i = a := by simpa using hi
                  have hb := (replyLoop_mem_range o rnd now k (a + 1) st j ht).1
                  omega
                · exact absurd hi (by simp)
                · exact hih.2 i hi
            · simp only [replyLoop, ho, hrl, hnf2, hsp, hlt,
                Bool.false_eq_true, if_false] at h ⊢
              simp only [List.mem_cons] at h
              rcases h with h | ht
              · exact absurd (by simpa using h) hjne
              · have hih := ih (a + 1) st j ht hnf hnrl
                refine ⟨hih.1, fun i hi => ?_⟩
                simp only [List.mem_cons] at hi
                rcases hi with hi | hi
                · have hia : i = a := by simpa using hi
                  have hb := (replyLoop_mem_range o rnd now k (a + 1) st j ht).1
                  omega
                · exact hih.2 i hi

/-- Effects an executor can emit before entering its retry loop. -/
def isPreEffect : ExecEffect → Bool
  | .safetySleep _ => true
  | .accountCheck => true
  | .refreshSession => true
  | _ => false

/-- Pre-loop effects carry no platform attempt and no cooldown. -/
theorem preEffects_no_attempt (l : List ExecEffect)
    (hl : ∀ e ∈ l, isPreEffect e = true) :
    countAttempts l = 0 ∧
      (∀ j, ExecEffect.platformAttempt j ∉ l) ∧
      (∀ m, ExecEffect.cooldownSet m ∉ l) := by
  induction l with
  | nil => simp [countAttempts]
  | cons e t ih =>
    have he := hl e (by simp)
    have ht := ih (fun x hx => hl x (by simp [hx]))
    cases e <;> simp [isPreEffect] at he <;>
      simp [countAttempts, ht.1] <;>
      exact ⟨fun j => ht.2.1 j, fun m => ht.2.2 m⟩

/-- The trace of send_dm is a pre-loop part followed by either nothing (an
early exit) or a full retry-loop trace. -/
theorem send_dm_trace_shape (randint : Nat → Nat → Nat) (st : SafetyState)
    (now : Nat) (mainClient authOk : Bool) (o : Nat → DmOutcome) :
    ∃ pre rest,
      (send_dm randint st now mainClient authOk o).2.1 = pre ++ rest ∧
      (∀ e ∈ pre, isPreEffect e = true) ∧
      (rest = [] ∨ ∃ w,
        rest = (sendDmLoop o randint now (List.range' 0 3) w).2.1 ∧
        (send_dm randint st now mainClient authOk o).1 =
          (sendDmLoop o randint now (List.range' 0 3) w).1) := by
  rcases hw : wait_for_action randint st now dmAction false with ⟨ok, slept, st'⟩
  rw [← List.range_eq_range']
  cases ok with
  | false =>
    exact ⟨[], [], by simp [send_dm, hw], by simp, Or.inl rfl⟩
  | true =>
    cases mainClient with
    | false =>
      cases slept with
      | none => exact ⟨[], [], by simp [send_dm, hw], by simp, Or.inl rfl⟩
      | some t =>
        exact ⟨[ExecEffect.safetySleep t], [], by simp [send_dm, hw],
          by simp [isPreEffect], Or.inl rfl⟩
    | true =>
      cases authOk with
      | false =>
        cases slept with
        | none =>
          exact ⟨[ExecEffect.accountCheck, ExecEffect.refreshSession], [],
            by simp [send_dm, hw], by simp [isPreEffect], Or.inl rfl⟩
        | some t =>
          exact ⟨[ExecEffect.safetySleep t, ExecEffect.accountCheck,
            ExecEffect.refreshSession], [],
            by simp [send_dm, hw], by simp [isPreEffect], Or.inl rfl⟩
      | true =>
        cases slept with
        | none =>
          exact ⟨[ExecEffect.accountCheck], _,
            by simp [send_dm, hw], by simp [isPreEffect],
            Or.inr ⟨st', rfl, by simp [send_dm, hw]⟩⟩
        | some t =>
          exact ⟨[ExecEffect.safetySleep t, ExecEffect.accountCheck], _,
            by simp [send_dm, hw], by simp [isPreEffect],
            Or.inr ⟨st', rfl, by simp [send_dm, hw]⟩⟩

/-- The trace of reply_to_comment is a pre-loop part followed by either
nothing (an early exit) or a full retry-loop trace. -/
theorem reply_trace_shape (randint : Nat → Nat → Nat) (st : SafetyState)
    (now : Nat) (mainClient : Bool) (o : Nat → ReplyOutcome) :
    ∃ pre rest,
      (reply_to_comment randint st now mainClient o).2.1 = pre ++ rest ∧
      (∀ e ∈ pre, isPreEffect e = true) ∧
      (rest = [] ∨ ∃ w,
        rest = (replyLoop o randint now (List.range' 0 3) w).2.1 ∧
        (reply_to_comment randint st now mainClient o).1 =
          (replyLoop o randint now (List.range' 0 3) w).1) := by
  rcases hw : wait_for_action randint st now replyAction false with ⟨ok, slept, st'⟩
  rw [← List.range_eq_range']
  cases ok with
  | false =>
    exact ⟨[], [], by simp [reply_to_comment, hw], by simp, Or.inl rfl⟩
  | true =>
    cases mainClient with
    | false =>
      cases slept with
      | none => exact ⟨[], [], by simp [reply_to_comment, hw], by simp, Or.inl rfl⟩
      | some t =>
        exact ⟨[ExecEffect.safetySleep t], [], by simp [reply_to_comment, hw],
          by simp [isPreEffect], Or.inl rfl⟩
    | true =>
      cases slept with
      | none =>
        exact ⟨[], _, by simp [reply_to_comment, hw], by simp,
          Or.inr ⟨st', rfl, by simp [reply_to_comment, hw]⟩⟩
      | some t =>
        exact ⟨[ExecEffect.safetySleep t], _, by simp [reply_to_comment, hw],
          by simp [isPreEffect], Or.inr ⟨st', rfl, by simp [reply_to_comment, hw]⟩⟩

/-- C5: each executor makes at most 3 platform-call attempts per invocation;
a rate-limited attempt sets the cooldown (15 minutes for a DM, 10 for a
reply) and is followed by a next attempt when the cap is not reached; a
vanished-content error on a reply fails the operation with no further
attempt. -/
theorem c5_executor_attempts_and_classification
    (randint : Nat → Nat → Nat) (st st2 : SafetyState) (now now2 : Nat)
    (mainClient mainClient2 authOk : Bool)
    (o : Nat → DmOutcome) (o2 : Nat → ReplyOutcome) :
    countAttempts (send_dm randint st now mainClient authOk o).2.1 ≤ 3 ∧
    countAttempts (reply_to_comment randint st2 now2 mainClient2 o2).2.1 ≤ 3 ∧
    (∀ j, ExecEffect.platformAttempt j ∈
        (send_dm randint st now mainClient authOk o).2.1 →
      dmOutcomeRateLimit (o j) = true →
      ExecEffect.cooldownSet 15 ∈
          (send_dm randint st now mainClient authOk o).2.1 ∧
        (j + 1 < 3 → ExecEffect.platformAttempt (j + 1) ∈
          (send_dm randint st now mainClient authOk o).2.1)) ∧
    (∀ j, ExecEffect.platformAttempt j ∈
        (reply_to_comment randint st2 now2 mainClient2 o2).2.1 →
      replyOutcomeRateLimit (o2 j) = true →
      ExecEffect.cooldownSet 10 ∈
          (reply_to_comment randint st2 now2 mainClient2 o2).2.1 ∧
        (j + 1 < 3 → ExecEffect.platformAttempt (j + 1) ∈
          (reply_to_comment randint st2 now2 mainClient2 o2).2.1)) ∧
    (∀ j, ExecEffect.platformAttempt j ∈
        (reply_to_comment randint st2 now2 mainClient2 o2).2.1 →
      replyOutcomeNotFound (o2 j) = true →
      replyOutcomeRateLimit (o2 j) = false →
      (reply_to_comment randint st2 now2 mainClient2 o2).1 = false ∧
        ∀ i, ExecEffect.platformAttempt i ∈
          (reply_to_comment randint st2 now2 mainClient2 o2).2.1 → i ≤ j) := by
  obtain ⟨pre, rest, heq, hpre, hrest⟩ :=
    send_dm_trace_shape randint st now mainClient authOk o
  obtain ⟨pre2, rest2, heq2, hpre2, hrest2⟩ :=
    reply_trace_shape randint st2 now2 mainClient2 o2
  obtain ⟨hpc, hpa, hcd⟩ := preEffects_no_attempt pre hpre
  obtain ⟨hpc2, hpa2, hcd2⟩ := preEffects_no_attempt pre2 hpre2
  refine ⟨?_, ?_, ?_, ?_, ?_⟩
  · rw [heq, countAttempts_append, hpc]
    rcases hrest with rfl | ⟨w, rfl, _⟩
    · simp [countAttempts]
    · simpa using sendDmLoop_count o randint now 3 0 w
  · rw [heq2, countAttempts_append, hpc2]
    rcases hrest2 with rfl | ⟨w, rfl, _⟩
    · simp [countAttempts]
    · simpa using replyLoop_count o2 randint now2 3 0 w
  · intro j hj hrl
    rw [heq] at hj ⊢
    rcases List.mem_append.mp hj with hj | hj
    · exact absurd hj (hpa j)
    rcases hrest with rfl | ⟨w, rfl, _⟩
    · simp at hj
    · have := sendDmLoop_rate_limit o randint now 3 0 w j hj hrl
      exact ⟨List.mem_append_right pre this.1, fun hlt =>
        List.mem_append_right pre (this.2 (by omega))⟩
  · intro j hj hrl
    rw [heq2] at hj ⊢
    rcases List.mem_append.mp hj with hj | hj
    · exact absurd hj (hpa2 j)
    rcases hrest2 with rfl | ⟨w, rfl, _⟩
    · simp at hj
    · have := replyLoop_rate_limit o2 randint now2 3 0 w j hj hrl
      exact ⟨List.mem_append_right pre2 this.1, fun hlt =>
        List.mem_append_right pre2 (this.2 (by omega))⟩
  · intro j hj hnf hnrl
    rw [heq2] at hj
    rcases List.mem_append.mp hj with hj | hj
    · exact absurd hj (hpa2 j)
    rcases hrest2 with rfl | ⟨w, rfl, hres⟩
    · simp at hj
    · have := replyLoop_not_found o2 randint now2 3 0 w j hj hnf hnrl
      refine ⟨by rw [hres]; exact this.1, fun i hi => ?_⟩
      rw [heq2] at hi
      rcases List.mem_append.mp hi with hi | hi
      · exact absurd hi (hpa2 i)
      · exact this.2 i hi

/-- Witness for C5: a rate-limited first DM attempt sets the cooldown and a
second attempt is made; a vanished-content first reply attempt fails the
operation with no second attempt. -/
theorem c5_executor_attempts_and_classification_witness :
    (ExecEffect.cooldownSet 15 ∈
        (send_dm (fun a _ => a) initialSafetyState 1000 true true
          (fun n => if n == 0 then .raise rateLimitStr else .ok)).2.1 ∧
      (0 + 1 < 3 → ExecEffect.platformAttempt 1 ∈
        (send_dm (fun a _ => a) initialSafetyState 1000 true true
          (fun n => if n == 0 then .raise rateLimitStr else .ok)).2.1)) ∧
    ((reply_to_comment (fun a _ => a) initialSafetyState 1000 true
        (fun n => if n == 0 then .raise notFoundStr else .ok)).1 = false ∧
      ∀ i, ExecEffect.platformAttempt i ∈
        (reply_to_comment (fun a _ => a) initialSafetyState 1000 true
          (fun n => if n == 0 then .raise notFoundStr else .ok)).2.1 → i ≤ 0) :=
  ⟨(c5_executor_attempts_and_classification (fun a _ => a) initialSafetyState
      initialSafetyState 1000 1000 true true true
      (fun n => if n == 0 then .raise rateLimitStr else .ok)
      (fun n => if n == 0 then .raise notFoundStr else .ok)).2.2.1 0
      (by decide) (by decide),
    (c5_executor_attempts_and_classification (fun a _ => a) initialSafetyState
      initialSafetyState 1000 1000 true true true
      (fun n => if n == 0 then .raise rateLimitStr else .ok)
      (fun n => if n == 0 then .raise notFoundStr else .ok)).2.2.2.2 0
      (by decide) (by decide) (by decide)⟩

/-! ## Claim C2: the typo pattern of an alphabetic keyword is nullable -/

/-- charReplace distributes over concatenation. -/
theorem charReplace_append (n : Char) (r : Str) (s t : Str) :
    charReplace n r (s ++ t) = charReplace n r s ++ charReplace n r t := by
  simp [charReplace]

/-- applyList distributes over concatenation. -/
theorem applyList_append (subs : List (Char × Str)) :
    ∀ s t, applyList subs (s ++ t) = applyList subs s ++ applyList subs t := by
  induction subs with
  | nil => intro s t; rfl
  | cons p ps ih =>
    intro s t
    simp only [applyList, List.foldl_cons] at ih ⊢
    rw [charReplace_append]
    exact ih _ _

/-- The substitution phase processes one character at a time. -/
theorem applySubs_cons (c : Char) (s : Str) :
    applySubs (c :: s) = applySubs [c] ++ applySubs s := by
  have h : (c :: s : Str) = [c] ++ s := rfl
  rw [h]
  exact applyList_append substitutions [c] s

/-- The flexibility phase distributes over concatenation. -/
theorem flexible_append (s t : Str) :
    flexible (s ++ t) = flexible s ++ flexible t := by
  simp [flexible]

/-- The typo pattern of a keyword is the concatenation of per-character
blocks. -/
theorem create_typo_pattern_cons (c : Char) (s : Str) :
    create_typo_pattern (c :: s) =
      flexible (applySubs [c]) ++ create_typo_pattern s := by
  unfold create_typo_pattern
  rw [applySubs_cons, flexible_append]

/-- An alphabetic character is none of the regex metacharacters. -/
theorem alpha_char_facts (c : Char) (hc : c.isAlpha = true) :
    (c == '[') = false ∧ (c == '?') = false ∧ reMeta.contains c = false := by
  have hmem : c ∉ reMeta := by
    intro hm
    simp only [reMeta, List.mem_cons, List.not_mem_nil, or_false] at hm
    rcases hm with rfl | rfl | rfl | rfl | rfl | rfl | rfl | rfl | rfl | rfl |
      rfl | rfl | rfl | rfl <;> exact absurd hc (by decide)
  refine ⟨beq_eq_false_iff_ne.mpr ?_, beq_eq_false_iff_ne.mpr ?_, ?_⟩
  · intro h; rw [h] at hmem; exact hmem (by decide)
  · intro h; rw [h] at hmem; exact hmem (by decide)
  · simp [List.contains, List.elem_eq_mem, hmem]

/-- A single character whose value is no substitution key passes the
substitution phase unchanged. -/
theorem applySubs_single_id (c : Char)
    (ha : ¬c = 'a') (he : ¬c = 'e') (hi : ¬c = 'i') (ho : ¬c = 'o')
    (hs : ¬c = 's') (hl : ¬c = 'l') (ht : ¬c = 't') (hg : ¬c = 'g')
    (hb : ¬c = 'b') : applySubs [c] = [c] := by
  simp [applySubs, applyList, substitutions, charReplace,
    ha, he, hi, ho, hs, hl, ht, hg, hb]

/-- The per-character block of an alphabetic character parses to exactly one
optional atom, whatever follows. -/
theorem alpha_block (c : Char) (hc : c.isAlpha = true) (acc : List RAtom)
    (rest : Str) :
    ∃ ms, parseGo none acc (flexible (applySubs [c]) ++ rest) =
      parseGo none (⟨ms, true⟩ :: acc) rest := by
  by_cases ha : c = 'a'
  · subst ha; exact ⟨['?', 'a', '?', '@'], rfl⟩
  by_cases he : c = 'e'
  · subst he; exact ⟨['?', 'e', '?', '3'], rfl⟩
  by_cases hi : c = 'i'
  · subst hi; exact ⟨['?', 'i', '?', '1'], rfl⟩
  by_cases ho : c = 'o'
  · subst ho; exact ⟨['?', 'o', '?', '0'], rfl⟩
  by_cases hs : c = 's'
  · subst hs; exact ⟨['?', 's', '?', '5', 'z', '?'], rfl⟩
  by_cases hl : c = 'l'
  · subst hl; exact ⟨['?', 'l', '?', '1'], rfl⟩
  by_cases ht : c = 't'
  · subst ht; exact ⟨['?', 't', '?', '7'], rfl⟩
  by_cases hg : c = 'g'
  · subst hg; exact ⟨['?', 'g', '?', '9'], rfl⟩
  by_cases hb : c = 'b'
  · subst hb; exact ⟨['?', 'b', '?', '6'], rfl⟩
  obtain ⟨hb1, hb2, hb3⟩ := alpha_char_facts c hc
  rw [applySubs_single_id c ha he hi ho hs hl ht hg hb]
  have hflex : flexible [c] = [c, '?'] := by simp [flexible, hc]
  rw [hflex]
  refine ⟨[c], ?_⟩
  have hshape : ([c, '?'] ++ rest : Str) = c :: '?' :: rest := rfl
  rw [hshape]
  have step1 : parseGo none acc (c :: '?' :: rest) =
      parseGo none (⟨[c], false⟩ :: acc) ('?' :: rest) := by
    simp only [parseGo, hb1, hb2, hb3, Bool.false_eq_true, if_false]
  rw [step1]
  rfl

/-- The typo pattern of an all-alphabetic keyword parses, and every one of
its atoms is optional. -/
theorem create_pattern_parse :
    ∀ s : Str, s.all Char.isAlpha = true → ∀ acc, ∃ atoms,
      parseGo none acc (create_typo_pattern s) = some (acc.reverse ++ atoms) ∧
      ∀ a ∈ atoms, a.opt = true := by
  intro s
  induction s with
  | nil =>
    intro h acc
    exact ⟨[], by simp [create_typo_pattern, parseGo], by simp⟩
  | cons c t ih =>
    intro h acc
    simp only [List.all_cons, Bool.and_eq_true] at h
    rw [create_typo_pattern_cons]
    obtain ⟨ms, hblock⟩ := alpha_block c h.1 acc (create_typo_pattern t)
    rw [hblock]
    obtain ⟨atoms, hp, hopt⟩ := ih h.2 (⟨ms, true⟩ :: acc)
    refine ⟨⟨ms, true⟩ :: atoms, ?_, ?_⟩
    · rw [hp]
      simp [List.reverse_cons, List.append_assoc]
    · intro a hmem
      rcases List.mem_cons.mp hmem with rfl | hmem2
      · rfl
      · exact hopt a hmem2

/-- A sequence of optional atoms matches at the current position. -/
theorem matchHere_all_opt (atoms : List RAtom)
    (h : ∀ a ∈ atoms, a.opt = true) : ∀ s, matchHere atoms s = true := by
  induction atoms with
  | nil => intro s; rfl
  | cons a rest ih =>
    intro s
    have ha := h a (by simp)
    have hr := ih (fun x hx => h x (by simp [hx]))
    cases s <;> simp [matchHere, ha, hr]

/-- A sequence of optional atoms is found by the search in every text. -/
theorem reSearch_all_opt (atoms : List RAtom)
    (h : ∀ a ∈ atoms, a.opt = true) : ∀ s, reSearch atoms s = true := by
  intro s
  cases s <;> simp [reSearch, matchHere_all_opt atoms h]

/-- An all-alphabetic keyword fires against every comment text. -/
theorem fuzzyMatchKeyword_alpha (tl : Str) (kw : Str)
    (h : (pyStrip (pyLower kw)).all Char.isAlpha = true) :
    fuzzyMatchKeyword tl kw = some true := by
  unfold fuzzyMatchKeyword
  by_cases h1 : isSubstr (pyStrip (pyLower kw)) tl = true
  · simp [h1]
  · by_cases h2 : isSubstr (removeSpaces (pyStrip (pyLower kw)))
        (removeSpaces tl) = true
    · simp [h1, h2]
    · obtain ⟨atoms, hp, hopt⟩ := create_pattern_parse (pyStrip (pyLower kw)) h []
      have hm : parseMain (create_typo_pattern (pyStrip (pyLower kw))) =
          some atoms := by
        unfold parseMain; rw [hp]; simp
      simp [h1, h2, hm, reSearch_all_opt atoms hopt tl]

/-- C2: for an all-alphabetic keyword (after lowercasing and trimming) the
typo pattern parses with every atom optional, so it matches the empty string
and the search succeeds on every text; consequently the fuzzy matcher
accepts every comment against that keyword alone and can never report false
for a keyword list containing it. -/
theorem c2_alpha_keyword_matches_everything (kw : Str)
    (h : (pyStrip (pyLower kw)).all Char.isAlpha = true) :
    (∃ atoms, parseMain (create_typo_pattern (pyStrip (pyLower kw))) =
        some atoms ∧ (∀ a ∈ atoms, a.opt = true) ∧
        ∀ text : Str, reSearch atoms text = true) ∧
    (∀ text : Str, fuzzy_keyword_match text [kw] = some true) ∧
    (∀ text keywords, kw ∈ keywords →
      fuzzy_keyword_match text keywords ≠ some false) := by
  obtain ⟨atoms, hp, hopt⟩ := create_pattern_parse (pyStrip (pyLower kw)) h []
  have hm : parseMain (create_typo_pattern (pyStrip (pyLower kw))) =
      some atoms := by
    unfold parseMain; rw [hp]; simp
  refine ⟨⟨atoms, hm, hopt, fun text => reSearch_all_opt atoms hopt text⟩,
    ?_, ?_⟩
  · intro text
    unfold fuzzy_keyword_match fuzzyLoop
    rw [fuzzyMatchKeyword_alpha (pyLower text) kw h]
  · intro text keywords hmem
    unfold fuzzy_keyword_match
    induction keywords with
    | nil => cases hmem
    | cons k ks ih =>
      rcases List.mem_cons.mp hmem with rfl | hmem2
      · unfold fuzzyLoop
        rw [fuzzyMatchKeyword_alpha (pyLower text) kw h]
        simp
      · unfold fuzzyLoop
        cases hk : fuzzyMatchKeyword (pyLower text) k with
        | none => simp
        | some b =>
          cases b with
          | true => simp
          | false =>
            simp only []
            exact ih hmem2

/-- Witness for C2 at the keyword link and the unrelated text abc. -/
theorem c2_alpha_keyword_matches_everything_witness :
    ((pyStrip (pyLower ['l', 'i', 'n', 'k'])).all Char.isAlpha = true) ∧
    fuzzy_keyword_match ['a', 'b', 'c'] [['l', 'i', 'n', 'k']] = some true :=
  ⟨by decide,
    (c2_alpha_keyword_matches_everything ['l', 'i', 'n', 'k']
      (by decide)).2.1 ['a', 'b', 'c']⟩

/-! ## Claims C3 and C4: lemmas about the dedup ledger and the loop -/

/-- Boolean set membership agrees with list membership. -/
theorem contains_true_iff (l : List Str) (x : Str) :
    l.contains x = true ↔ x ∈ l := by
  simp [List.contains, List.elem_eq_mem]

/-- The element just added is in the set. -/
theorem setAdd_self (l : List Str) (x : Str) :
    (setAdd l x).contains x = true := by
  unfold setAdd
  by_cases h : l.contains x = true
  · rw [if_pos h]; exact h
  · rw [if_neg h, contains_true_iff]
    simp

/-- Adding an element keeps every previous member. -/
theorem setAdd_mono (l : List Str) (x y : Str) (h : l.contains y = true) :
    (setAdd l x).contains y = true := by
  unfold setAdd
  by_cases hx : l.contains x = true
  · rw [if_pos hx]; exact h
  · rw [if_neg hx, contains_true_iff]
    exact List.mem_append_left _ ((contains_true_iff l y).mp h)

/-- Adding to the per-post set of one key keeps every member of every key. -/
theorem getD_postsAdd_contains (url2 x url id : Str) :
    ∀ ps : List (Str × List Str),
      ((lookupPosts ps url).getD []).contains id = true →
      ((lookupPosts (postsAdd ps url2 x) url).getD []).contains id = true := by
  intro ps
  induction ps with
  | nil => intro h; simp [lookupPosts] at h
  | cons p t ih =>
    obtain ⟨a, b⟩ := p
    intro h
    by_cases ha2 : (a == url2) = true
    · by_cases ha : (a == url) = true
      · simp only [lookupPosts, postsAdd, ha2, ha, if_true, Option.getD_some] at h ⊢
        exact setAdd_mono b x id h
      · simp only [lookupPosts, postsAdd, ha2, ha, if_true,
          Bool.false_eq_true, if_false] at h ⊢
        exact h
    · by_cases ha : (a == url) = true
      · simp only [lookupPosts, postsAdd, ha2, ha, if_true,
          Bool.false_eq_true, if_false, Option.getD_some] at h ⊢
        exact h
      · simp only [lookupPosts, postsAdd, ha2, ha,
          Bool.false_eq_true, if_false] at h ⊢
        exact ih h

/-- Adding to the per-post set of one key keeps every key present. -/
theorem lookupPosts_isSome_postsAdd (url2 x url : Str) :
    ∀ ps : List (Str × List Str),
      (lookupPosts ps url).isSome = true →
      (lookupPosts (postsAdd ps url2 x) url).isSome = true := by
  intro ps
  induction ps with
  | nil => intro h; simp [lookupPosts] at h
  | cons p t ih =>
    obtain ⟨a, b⟩ := p
    intro h
    by_cases ha2 : (a == url2) = true
    · by_cases ha : (a == url) = true
      · simp [lookupPosts, postsAdd, ha2, ha]
      · simp only [lookupPosts, postsAdd, ha2, ha, if_true,
          Bool.false_eq_true, if_false] at h ⊢
        exact h
    · by_cases ha : (a == url) = true
      · simp [lookupPosts, postsAdd, ha2, ha]
      · simp only [lookupPosts, postsAdd, ha2, ha,
          Bool.false_eq_true, if_false] at h ⊢
        exact ih h

/-- The per-post set of a present key after marking contains the marked id. -/
theorem lookupPosts_postsAdd_self (url x : Str) :
    ∀ ps : List (Str × List Str), (lookupPosts ps url).isSome = true →
      ((lookupPosts (postsAdd ps url x) url).getD []).contains x = true := by
  intro ps
  induction ps with
  | nil => intro h; simp [lookupPosts] at h
  | cons p t ih =>
    obtain ⟨a, b⟩ := p
    intro h
    by_cases ha : (a == url) = true
    · simp only [lookupPosts, postsAdd, ha, if_true, Option.getD_some]
      exact setAdd_self b x
    · simp only [lookupPosts, postsAdd, ha, Bool.false_eq_true, if_false] at h ⊢
      exact ih h

/-- Marking one comment keeps every comment already processed. -/
theorem alreadyProcessed_mark_mono (σ : Ledger) (url2 id2 url id : Str)
    (h : alreadyProcessed σ url id = true) :
    alreadyProcessed (markProcessed σ url2 id2) url id = true := by
  unfold alreadyProcessed at h ⊢
  simp only [markProcessed]
  simp only [Bool.or_eq_true] at h ⊢
  rcases h with h | h
  · exact Or.inl (setAdd_mono σ.total id2 id h)
  · exact Or.inr (getD_postsAdd_contains url2 id2 url id σ.posts h)

/-- A freshly marked comment counts as processed (through the global set). -/
theorem alreadyProcessed_mark_self (σ : Ledger) (url id : Str) :
    alreadyProcessed (markProcessed σ url id) url id = true := by
  unfold alreadyProcessed markProcessed
  simp only [Bool.or_eq_true]
  exact Or.inl (setAdd_self σ.total id)

/-- Appending a fresh empty per-post set does not change any lookup default. -/
theorem lookupPosts_append_empty (u url : Str) :
    ∀ ps : List (Str × List Str),
      ((lookupPosts (ps ++ [(u, [])]) url).getD []) =
        ((lookupPosts ps url).getD []) := by
  intro ps
  induction ps with
  | nil =>
    by_cases h : (u == url) = true <;> simp [lookupPosts, h]
  | cons p t ih =>
    obtain ⟨a, b⟩ := p
    by_cases h : (a == url) = true <;> simp [lookupPosts, h, ih]

/-- The lazy per-post initialisation does not change the dedup gate. -/
theorem alreadyProcessed_ensurePost (σ : Ledger) (url2 url id : Str) :
    alreadyProcessed (ensurePost σ url2) url id =
      alreadyProcessed σ url id := by
  unfold ensurePost
  cases h : lookupPosts σ.posts url2 with
  | some s => rfl
  | none => unfold alreadyProcessed; rw [lookupPosts_append_empty]

/-- After the lazy initialisation the per-post key is present. -/
theorem ensurePost_isSome (σ : Ledger) (url : Str) :
    (lookupPosts (ensurePost σ url).posts url).isSome = true := by
  unfold ensurePost
  cases h : lookupPosts σ.posts url with
  | some s => simp [h]
  | none =>
    have : ∀ ps : List (Str × List Str), lookupPosts ps url = none →
        lookupPosts (ps ++ [(url, [])]) url = some [] := by
      intro ps
      induction ps with
      | nil => intro _; simp [lookupPosts]
      | cons p t ih =>
        obtain ⟨a, b⟩ := p
        intro hn
        by_cases ha : (a == url) = true
        · simp [lookupPosts, ha] at hn
        · simp only [lookupPosts, ha, Bool.false_eq_true, if_false] at hn
          simp only [List.cons_append, lookupPosts, ha, Bool.false_eq_true,
            if_false]
          exact ih hn
    simp [this σ.posts h]

/-- When the per-post key is present the lazy initialisation is the
identity. -/
theorem ensurePost_of_isSome (σ : Ledger) (url : Str)
    (h : (lookupPosts σ.posts url).isSome = true) : ensurePost σ url = σ := by
  unfold ensurePost
  cases hl : lookupPosts σ.posts url with
  | some s => rfl
  | none => rw [hl] at h; cases h

/-- The dedup ledger only grows over one post's comment processing. -/
theorem processComments_mono (kws : List Str) (msg postUrl : Str)
    (dmOk replyOk : MComment → Bool) (delayFor : Nat → Nat) (url0 id : Str) :
    ∀ cs σ n, alreadyProcessed σ url0 id = true →
      alreadyProcessed
        (processComments kws msg postUrl dmOk replyOk delayFor σ n cs).1
        url0 id = true := by
  intro cs
  induction cs with
  | nil => intro σ n h; simpa [processComments] using h
  | cons c cs ih =>
    intro σ n h
    by_cases hap : alreadyProcessed σ postUrl c.pk = true
    · simp only [processComments, hap, if_true]
      exact ih σ n h
    · cases hf : fuzzy_keyword_match c.text kws with
      | none =>
        simp only [processComments, hap, Bool.false_eq_true, if_false, hf]
        exact h
      | some b =>
        cases b
        · simp only [processComments, hap, Bool.false_eq_true, if_false, hf]
          exact ih σ n h
        · simp only [processComments, hap, Bool.false_eq_true, if_false, hf]
          exact ih _ _ (alreadyProcessed_mark_mono σ postUrl c.pk url0 id h)

/-- The per-post key stays present over one post's comment processing. -/
theorem processComments_key_isSome (kws : List Str) (msg postUrl : Str)
    (dmOk replyOk : MComment → Bool) (delayFor : Nat → Nat) (url0 : Str) :
    ∀ cs σ n, (lookupPosts σ.posts url0).isSome = true →
      (lookupPosts
        (processComments kws msg postUrl dmOk replyOk delayFor σ n cs).1.posts
        url0).isSome = true := by
  intro cs
  induction cs with
  | nil => intro σ n h; simpa [processComments] using h
  | cons c cs ih =>
    intro σ n h
    by_cases hap : alreadyProcessed σ postUrl c.pk = true
    · simp only [processComments, hap, if_true]
      exact ih σ n h
    · cases hf : fuzzy_keyword_match c.text kws with
      | none =>
        simp only [processComments, hap, Bool.false_eq_true, if_false, hf]
        exact h
      | some b =>
        cases b
        · simp only [processComments, hap, Bool.false_eq_true, if_false, hf]
          exact ih σ n h
        · simp only [processComments, hap, Bool.false_eq_true, if_false, hf]
          refine ih _ _ ?_
          simp only [markProcessed]
          exact lookupPosts_isSome_postsAdd postUrl c.pk url0 σ.posts h

/-- A comment id already in the ledger is never the subject of a DM or reply
invocation during one post's comment processing. -/
theorem processComments_no_touch (kws : List Str) (msg postUrl : Str)
    (dmOk replyOk : MComment → Bool) (delayFor : Nat → Nat) (id : Str) :
    ∀ cs σ n, alreadyProcessed σ postUrl id = true →
      ((processComments kws msg postUrl dmOk replyOk delayFor σ n cs).2.all
        (fun e => !mentionsComment id e)) = true := by
  intro cs
  induction cs with
  | nil => intro σ n h; simp [processComments]
  | cons c cs ih =>
    intro σ n h
    by_cases hap : alreadyProcessed σ postUrl c.pk = true
    · simp only [processComments, hap, if_true]
      exact ih σ n h
    · have hne : (c.pk == id) = false := by
        rw [beq_eq_false_iff_ne]
        intro heq
        rw [heq] at hap
        exact hap h
      cases hf : fuzzy_keyword_match c.text kws with
      | none =>
        simp [processComments, hap, hf, mentionsComment]
      | some b =>
        cases b
        · simp only [processComments, hap, Bool.false_eq_true, if_false, hf,
            List.all_cons, Bool.and_eq_true]
          exact ⟨by simp [mentionsComment], ih σ n h⟩
        · simp only [processComments, hap, Bool.false_eq_true, if_false, hf,
            matchBlock, List.all_append, List.all_cons, Bool.and_eq_true]
          refine ⟨⟨by simp [mentionsComment], by simp [mentionsComment],
            by simp [mentionsComment, hne], ?_, by simp [mentionsComment],
            by simp [mentionsComment, hne], ?_⟩, ?_⟩
          · by_cases hd : dmOk c = true <;> simp [hd, mentionsComment]
          · constructor
            · by_cases hr : replyOk c = true <;> simp [hr, mentionsComment]
            · by_cases hn : n > 0 <;> simp [hn, mentionsComment]
          · exact ih _ _ (alreadyProcessed_mark_mono σ postUrl c.pk postUrl id h)

/-- Replaying the same comment list against the ledger produced by a first
pass changes nothing in the ledger and invokes no DM, no reply and no
persist. -/
theorem processComments_replay (kws : List Str) (msg postUrl : Str)
    (dmOk replyOk : MComment → Bool) (delayFor : Nat → Nat) :
    ∀ cs σ n n2,
      (processComments kws msg postUrl dmOk replyOk delayFor
        (processComments kws msg postUrl dmOk replyOk delayFor σ n cs).1
        n2 cs).1 =
        (processComments kws msg postUrl dmOk replyOk delayFor σ n cs).1 ∧
      ((processComments kws msg postUrl dmOk replyOk delayFor
        (processComments kws msg postUrl dmOk replyOk delayFor σ n cs).1
        n2 cs).2.all (fun e => !isActionEffect e)) = true := by
  intro cs
  induction cs with
  | nil => intro σ n n2; simp [processComments]
  | cons c cs ih =>
    intro σ n n2
    by_cases hap : alreadyProcessed σ postUrl c.pk = true
    · have h1 : processComments kws msg postUrl dmOk replyOk delayFor σ n
          (c :: cs) =
          processComments kws msg postUrl dmOk replyOk delayFor σ n cs := by
        simp [processComments, hap]
      rw [h1]
      have hap2 := processComments_mono kws msg postUrl dmOk replyOk delayFor
        postUrl c.pk cs σ n hap
      have h2 : processComments kws msg postUrl dmOk replyOk delayFor
          (processComments kws msg postUrl dmOk replyOk delayFor σ n cs).1 n2
          (c :: cs) =
          processComments kws msg postUrl dmOk replyOk delayFor
            (processComments kws msg postUrl dmOk replyOk delayFor σ n cs).1 n2
            cs := by
        simp [processComments, hap2]
      rw [h2]
      exact ih σ n n2
    · cases hf : fuzzy_keyword_match c.text kws with
      | none =>
        have h1 : processComments kws msg postUrl dmOk replyOk delayFor σ n
            (c :: cs) = (σ, [MEffect.statFound c.username]) := by
          simp [processComments, hap, hf]
        have h2 : processComments kws msg postUrl dmOk replyOk delayFor σ n2
            (c :: cs) = (σ, [MEffect.statFound c.username]) := by
          simp [processComments, hap, hf]
        rw [h1]
        rw [show (σ, [MEffect.statFound c.username]).1 = σ from rfl, h2]
        exact ⟨rfl, by simp [isActionEffect]⟩
      | some b =>
        cases b
        · have h1 : processComments kws msg postUrl dmOk replyOk delayFor σ n
              (c :: cs) =
              ((processComments kws msg postUrl dmOk replyOk delayFor σ n
                cs).1,
                MEffect.statFound c.username ::
                  (processComments kws msg postUrl dmOk replyOk delayFor σ n
                    cs).2) := by
            simp [processComments, hap, hf]
          rw [h1]
          by_cases hap2 : alreadyProcessed
              (processComments kws msg postUrl dmOk replyOk delayFor σ n cs).1
              postUrl c.pk = true
          · have h2 : processComments kws msg postUrl dmOk replyOk delayFor
                (processComments kws msg postUrl dmOk replyOk delayFor σ n
                  cs).1 n2 (c :: cs) =
                processComments kws msg postUrl dmOk replyOk delayFor
                  (processComments kws msg postUrl dmOk replyOk delayFor σ n
                    cs).1 n2 cs := by
              simp [processComments, hap2]
            rw [h2]
            exact ih σ n n2
          · have h2 : processComments kws msg postUrl dmOk replyOk delayFor
                (processComments kws msg postUrl dmOk replyOk delayFor σ n
                  cs).1 n2 (c :: cs) =
                ((processComments kws msg postUrl dmOk replyOk delayFor
                  (processComments kws msg postUrl dmOk replyOk delayFor σ n
                    cs).1 n2 cs).1,
                  MEffect.statFound c.username ::
                    (processComments kws msg postUrl dmOk replyOk delayFor
                      (processComments kws msg postUrl dmOk replyOk delayFor
                        σ n cs).1 n2 cs).2) := by
              simp [processComments, hap2, hf]
            rw [h2]
            have hih := ih σ n n2
            refine ⟨hih.1, ?_⟩
            simp only [List.all_cons, Bool.and_eq_true]
            exact ⟨by simp [isActionEffect], hih.2⟩
        · have h1 : (processComments kws msg postUrl dmOk replyOk delayFor σ n
              (c :: cs)).1 =
              (processComments kws msg postUrl dmOk replyOk delayFor
                (markProcessed σ postUrl c.pk) (n + 1) cs).1 := by
            simp [processComments, hap, hf]
          rw [h1]
          have hap2 := processComments_mono kws msg postUrl dmOk replyOk
            delayFor postUrl c.pk cs (markProcessed σ postUrl c.pk) (n + 1)
            (alreadyProcessed_mark_self σ postUrl c.pk)
          have h2 : processComments kws msg postUrl dmOk replyOk delayFor
              (processComments kws msg postUrl dmOk replyOk delayFor
                (markProcessed σ postUrl c.pk) (n + 1) cs).1 n2 (c :: cs) =
              processComments kws msg postUrl dmOk replyOk delayFor
                (processComments kws msg postUrl dmOk replyOk delayFor
                  (markProcessed σ postUrl c.pk) (n + 1) cs).1 n2 cs := by
            simp [processComments, hap2]
          rw [h2]
          exact ih (markProcessed σ postUrl c.pk) (n + 1) n2

/-- The comment of the replay counterexample: its text xyz does not match
the keyword k9. -/
def cexComment : MComment :=
  ⟨['c', '1'], ['u', '9'], ['b', 'o', 'b'], ['x', 'y', 'z']⟩

/-- Counterexample to C3 as stated: replaying the same one-comment fetch
result against the ledger produced by a first pass emits a comment_found
statistics mutation again, so the replay is not free of side effects. -/
theorem c3_counterexample_replay_repeats_statistics :
    (processPost [['k', '9']] ['m'] ['u'] (fun _ => true) (fun _ => true)
      (fun _ => 0)
      (processPost [['k', '9']] ['m'] ['u'] (fun _ => true) (fun _ => true)
        (fun _ => 0) ⟨[], []⟩ [cexComment]).1
      [cexComment]).2 = [MEffect.statFound ['b', 'o', 'b']] ∧
    (processPost [['k', '9']] ['m'] ['u'] (fun _ => true) (fun _ => true)
      (fun _ => 0)
      (processPost [['k', '9']] ['m'] ['u'] (fun _ => true) (fun _ => true)
        (fun _ => 0) ⟨[], []⟩ [cexComment]).1
      [cexComment]).2 ≠ [] := by
  constructor
  · decide
  · decide

/-- C3 as amended: during one post's processing, no DM and no reply is
invoked for a comment id already in the ledger; and replaying the same
comment-fetch result against the ledger a first pass produced leaves the
ledger unchanged and invokes no DM, no reply and no ledger persist — though
comment_found statistics effects may recur for unmatched comments. -/
theorem c3_dedup_gate_and_replay_without_actions (kws : List Str)
    (msg postUrl : Str) (dmOk replyOk : MComment → Bool)
    (delayFor : Nat → Nat) (σ : Ledger) (comments : List MComment) :
    (∀ c ∈ comments, alreadyProcessed σ postUrl c.pk = true →
      ((processPost kws msg postUrl dmOk replyOk delayFor σ comments).2.all
        (fun e => !mentionsComment c.pk e)) = true) ∧
    ((processPost kws msg postUrl dmOk replyOk delayFor
        (processPost kws msg postUrl dmOk replyOk delayFor σ comments).1
        comments).1 =
      (processPost kws msg postUrl dmOk replyOk delayFor σ comments).1 ∧
     ((processPost kws msg postUrl dmOk replyOk delayFor
        (processPost kws msg postUrl dmOk replyOk delayFor σ comments).1
        comments).2.all (fun e => !isActionEffect e)) = true) := by
  constructor
  · intro c hc hap
    unfold processPost
    apply processComments_no_touch
    rw [alreadyProcessed_ensurePost]
    exact hap
  · have hsome : (lookupPosts
        (processComments kws msg postUrl dmOk replyOk delayFor
          (ensurePost σ postUrl) 0 comments).1.posts postUrl).isSome = true :=
      processComments_key_isSome kws msg postUrl dmOk replyOk delayFor postUrl
        comments (ensurePost σ postUrl) 0 (ensurePost_isSome σ postUrl)
    unfold processPost
    rw [ensurePost_of_isSome _ _ hsome]
    exact processComments_replay kws msg postUrl dmOk replyOk delayFor
      comments (ensurePost σ postUrl) 0 0

/-- Witness for the amended C3 at a ledger already holding the comment id. -/
theorem c3_dedup_gate_and_replay_without_actions_witness :
    ((processPost [['k', '9']] ['m'] ['u'] (fun _ => true) (fun _ => true)
      (fun _ => 0) ⟨[['c', '1']], []⟩ [cexComment]).2.all
        (fun e => !mentionsComment ['c', '1'] e)) = true :=
  (c3_dedup_gate_and_replay_without_actions [['k', '9']] ['m'] ['u']
    (fun _ => true) (fun _ => true) (fun _ => 0) ⟨[['c', '1']], []⟩
    [cexComment]).1 cexComment (by decide) (by decide)

/-- The only DM invocation inside a match block is the one for the block's
comment. -/
theorem dm_in_matchBlock (c : MComment) (msg : Str) (σ1 : Ledger)
    (dmS rS : Bool) (prog : List MEffect) (k u m : Str)
    (hpr : ∀ k2 u2 m2, MEffect.dmInvoke k2 u2 m2 ∉ prog)
    (h : MEffect.dmInvoke k u m ∈ matchBlock c msg σ1 dmS rS prog) :
    k = c.pk ∧ u = c.userPk ∧ m = msg := by
  by_cases hd : dmS = true <;> by_cases hr : rS = true <;>
    simp [matchBlock, hd, hr] at h <;>
    (rcases h with h | h
     · exact h
     · exact absurd h (hpr k u m))

/-- The persist, the DM invocation and the reply invocation occur in this
order inside a match block. -/
theorem triple_sublist_matchBlock (c : MComment) (msg : Str) (σ1 : Ledger)
    (dmS rS : Bool) (prog : List MEffect) :
    [MEffect.persistLedger σ1, MEffect.dmInvoke c.pk c.userPk msg,
      MEffect.replyInvoke c.pk].Sublist (matchBlock c msg σ1 dmS rS prog) := by
  unfold matchBlock
  refine List.Sublist.cons _ (List.Sublist.cons₂ _ (List.Sublist.cons₂ _ ?_))
  rw [List.singleton_sublist]
  simp

/-- C4, loop level: every DM invocation of one post's processing is preceded
by a persist of a ledger holding the comment id in both sets, and followed
by the reply invocation for the same comment. -/
theorem processComments_order (kws : List Str) (msg postUrl : Str)
    (dmOk replyOk : MComment → Bool) (delayFor : Nat → Nat) (k u m : Str) :
    ∀ cs σ n, (lookupPosts σ.posts postUrl).isSome = true →
      MEffect.dmInvoke k u m ∈
        (processComments kws msg postUrl dmOk replyOk delayFor σ n cs).2 →
      ∃ σp, List.Sublist
          [MEffect.persistLedger σp, MEffect.dmInvoke k u m,
            MEffect.replyInvoke k]
          (processComments kws msg postUrl dmOk replyOk delayFor σ n cs).2 ∧
        σp.total.contains k = true ∧
        ((lookupPosts σp.posts postUrl).getD []).contains k = true := by
  intro cs
  induction cs with
  | nil => intro σ n hs h; simp [processComments] at h
  | cons c cs ih =>
    intro σ n hs h
    by_cases hap : alreadyProcessed σ postUrl c.pk = true
    · simp only [processComments, hap, if_true] at h ⊢
      exact ih σ n hs h
    · cases hf : fuzzy_keyword_match c.text kws with
      | none =>
        simp only [processComments, hap, Bool.false_eq_true, if_false, hf] at h
        simp at h
      | some b =>
        cases b
        · simp only [processComments, hap, Bool.false_eq_true, if_false,
            hf] at h ⊢
          simp only [List.mem_cons] at h
          rcases h with h | h
          · cases h
          · obtain ⟨σp, hsub, h1, h2⟩ := ih σ n hs h
            exact ⟨σp, hsub.cons _, h1, h2⟩
        · simp only [processComments, hap, Bool.false_eq_true, if_false,
            hf] at h ⊢
          rcases List.mem_append.mp h with h | h
          · have hpr : ∀ k2 u2 m2, MEffect.dmInvoke k2 u2 m2 ∉
                (if n > 0 then
                  [MEffect.progressiveSleep (delayFor n)] else []) := by
              intro k2 u2 m2
              by_cases hn : n > 0 <;> simp [hn]
            obtain ⟨hk, hu, hm⟩ :=
              dm_in_matchBlock c msg (markProcessed σ postUrl c.pk)
                (dmOk c) (replyOk c) _ k u m hpr h
            rw [hk, hu, hm]
            refine ⟨markProcessed σ postUrl c.pk,
              (triple_sublist_matchBlock c msg _ (dmOk c) (replyOk c) _).trans
                (List.sublist_append_left _ _), ?_, ?_⟩
            · exact setAdd_self σ.total c.pk
            · simp only [markProcessed]
              exact lookupPosts_postsAdd_self postUrl c.pk σ.posts hs
          · have hs1 : (lookupPosts
                (markProcessed σ postUrl c.pk).posts postUrl).isSome = true := by
              simp only [markProcessed]
              exact lookupPosts_isSome_postsAdd postUrl c.pk postUrl σ.posts hs
            obtain ⟨σp, hsub, h1, h2⟩ := ih (markProcessed σ postUrl c.pk)
              (n + 1) hs1 h
            exact ⟨σp, hsub.trans (List.sublist_append_right _ _), h1, h2⟩

/-- C4: for every comment the fuzzy matcher accepts in a cycle (witnessed by
its DM invocation in the trace), the loop persists a ledger holding the
comment id in both the global and the per-post set strictly before the DM
invocation, and the DM invocation comes strictly before the reply
invocation. -/
theorem c4_mark_persist_before_dm_before_reply (kws : List Str)
    (msg postUrl : Str) (dmOk replyOk : MComment → Bool)
    (delayFor : Nat → Nat) (σ : Ledger) (comments : List MComment)
    (k u m : Str)
    (h : MEffect.dmInvoke k u m ∈
      (processPost kws msg postUrl dmOk replyOk delayFor σ comments).2) :
    ∃ σp, List.Sublist
        [MEffect.persistLedger σp, MEffect.dmInvoke k u m,
          MEffect.replyInvoke k]
        (processPost kws msg postUrl dmOk replyOk delayFor σ comments).2 ∧
      σp.total.contains k = true ∧
      ((lookupPosts σp.posts postUrl).getD []).contains k = true := by
  unfold processPost at h ⊢
  exact processComments_order kws msg postUrl dmOk replyOk delayFor k u m
    comments (ensurePost σ postUrl) 0 (ensurePost_isSome σ postUrl) h

/-- Witness for C4 on a one-comment run whose keyword link accepts the
comment text. -/
theorem c4_mark_persist_before_dm_before_reply_witness :
    ∃ σp, List.Sublist
        [MEffect.persistLedger σp,
          MEffect.dmInvoke ['c', '1'] ['u', '9'] ['m'],
          MEffect.replyInvoke ['c', '1']]
        (processPost [['l', 'i', 'n', 'k']] ['m'] ['u'] (fun _ => true)
          (fun _ => true) (fun _ => 0) ⟨[], []⟩ [cexComment]).2 ∧
      σp.total.contains ['c', '1'] = true ∧
      ((lookupPosts σp.posts ['u']).getD []).contains ['c', '1'] = true :=
  c4_mark_persist_before_dm_before_reply [['l', 'i', 'n', 'k']] ['m'] ['u']
    (fun _ => true) (fun _ => true) (fun _ => 0) ⟨[], []⟩ [cexComment]
    ['c', '1'] ['u', '9'] ['m'] (by decide)
